import Mathlib

/-!
Verification of the polyalphabetic cipher solver (Vigenere, Beaufort, Porta,
Quagmire I-IV, Autokey) against its natural-language specification.

The C sources are shallowly embedded: C `int` values become `ℤ`, the fixed
26-slot alphabet arrays become `List ℤ`, `float`/`double` arithmetic becomes
exact `ℚ` arithmetic, and the position-scan loops become `List.indexOf`.
Every definition mirrors a function of the repository; the file or line it
comes from is named in its doc comment.
-/

namespace Poly

/-- C idiom used throughout the repository: `indx = a % ALPHABET_SIZE;
if (indx < 0) indx += ALPHABET_SIZE;`.  C `%` is the truncated remainder
(`Int.tmod`); the conditional fix-up turns it into the canonical residue. -/
def fixMod (a : ℤ) : ℤ :=
  let r := Int.tmod a 26
  if r < 0 then r + 26 else r

theorem tmod26_neg (a : ℤ) : (-a).tmod 26 = -(a.tmod 26) := by
  have h1 := Int.tdiv_add_tmod a 26
  have h2 := Int.tdiv_add_tmod (-a) 26
  have h3 : (-a).tdiv 26 = -(a.tdiv 26) := Int.neg_tdiv a 26
  omega

theorem tmod26_lb (a : ℤ) : -26 < a.tmod 26 := by
  rcases le_or_lt 0 a with h | h
  · have := Int.tmod_nonneg 26 h
    omega
  · have h1 : (-a).tmod 26 = -(a.tmod 26) := tmod26_neg a
    have h2 : (-a).tmod 26 < 26 := Int.tmod_lt_of_pos (-a) (by norm_num)
    omega

/-- The two-step C remainder equals the mathematical residue mod 26. -/
theorem fixMod_eq (a : ℤ) : fixMod a = a % 26 := by
  unfold fixMod
  have h := Int.tdiv_add_tmod a 26
  have h2 : a.tmod 26 < 26 := Int.tmod_lt_of_pos a (by norm_num)
  have h3 := tmod26_lb a
  dsimp only
  split <;> omega

theorem fixMod_nonneg (a : ℤ) : 0 ≤ fixMod a := by
  rw [fixMod_eq]; exact Int.emod_nonneg a (by norm_num)

theorem fixMod_lt (a : ℤ) : fixMod a < 26 := by
  rw [fixMod_eq]; exact Int.emod_lt_of_pos a (by norm_num)

/-- Position of character `x` in alphabet array `A`: the first index `j`
with `A[j] == x`, exactly what the repeated scan loops
(`for j ... if (x == A[j]) { posn = j; break; }`) compute. -/
def posIn (A : List ℤ) (x : ℤ) : ℤ :=
  (A.indexOf x : ℤ)

/-- Array read `A[i]` for an `int` index already reduced to `[0, 26)`. -/
def elemAt (A : List ℤ) (i : ℤ) : ℤ :=
  A.getD i.toNat 0

/-- A well-formed keyed alphabet: 26 pairwise-distinct entries, each a
letter index in `[0, 26)` - i.e. a permutation of A..Z (spec section 3). -/
def IsAlphPerm (A : List ℤ) : Prop :=
  A.length = 26 ∧ A.Nodup ∧ ∀ x ∈ A, 0 ≤ x ∧ x < 26

instance (A : List ℤ) : Decidable (IsAlphPerm A) := by
  unfold IsAlphPerm; infer_instance

/-- A permutation alphabet contains every letter index. -/
theorem IsAlphPerm.mem_of_range {A : List ℤ} (hA : IsAlphPerm A) {x : ℤ}
    (h0 : 0 ≤ x) (h1 : x < 26) : x ∈ A := by
  obtain ⟨hlen, hnd, hrange⟩ := hA
  have hsub : A.toFinset ⊆ Finset.Ico (0 : ℤ) 26 := by
    intro y hy
    rw [List.mem_toFinset] at hy
    rcases hrange y hy with ⟨hy0, hy1⟩
    exact Finset.mem_Ico.mpr ⟨hy0, hy1⟩
  have hcard : (Finset.Ico (0 : ℤ) 26).card ≤ A.toFinset.card := by
    rw [List.toFinset_card_of_nodup hnd, hlen]
    simp [Int.card_Ico]
  have heq := Finset.eq_of_subset_of_card_le hsub hcard
  have hx : x ∈ Finset.Ico (0 : ℤ) 26 := Finset.mem_Ico.mpr ⟨h0, h1⟩
  rw [← heq, List.mem_toFinset] at hx
  exact hx

theorem posIn_nonneg (A : List ℤ) (x : ℤ) : 0 ≤ posIn A x := by
  unfold posIn; positivity

theorem posIn_lt {A : List ℤ} {x : ℤ} (h : x ∈ A) : posIn A x < (A.length : ℤ) := by
  unfold posIn
  exact_mod_cast List.indexOf_lt_length.mpr h

/-- Reading back the element at the scanned position returns the scanned
character. -/
theorem elemAt_posIn {A : List ℤ} {x : ℤ} (h : x ∈ A) : elemAt A (posIn A x) = x := by
  unfold elemAt posIn
  have hlt : A.indexOf x < A.length := List.indexOf_lt_length.mpr h
  rw [Int.toNat_ofNat]
  rw [List.getD_eq_getElem A 0 hlt]
  exact List.getElem_indexOf hlt

/-- Scanning for the element stored at index `i` of a duplicate-free
alphabet recovers `i`. -/
theorem posIn_elemAt {A : List ℤ} (hnd : A.Nodup) {i : ℤ} (h0 : 0 ≤ i)
    (h1 : i < (A.length : ℤ)) : posIn A (elemAt A i) = i := by
  unfold elemAt posIn
  have hi : i.toNat < A.length := by omega
  rw [List.getD_eq_getElem A 0 hi]
  have h := List.indexOf_getElem hnd i.toNat hi
  rw [h]
  omega

theorem elemAt_mem {A : List ℤ} {i : ℤ} (h0 : 0 ≤ i) (h1 : i < (A.length : ℤ)) :
    elemAt A i ∈ A := by
  unfold elemAt
  have hi : i.toNat < A.length := by omega
  rw [List.getD_eq_getElem A 0 hi]
  exact List.getElem_mem hi

/-- straight_alphabet from src/utils.c:117: `keyword[i] = i`. -/
def straight_alphabet (len : ℕ) : List ℤ :=
  (List.range len).map (fun i => (i : ℤ))

theorem straight_alphabet_perm : IsAlphPerm (straight_alphabet 26) := by
  decide

/-- Loop body of quagmire_encrypt (src/polyalphabetic.c:1358-1390) for one
plaintext character `x` with cycleword character `cw`: find the position of
`x` in the plaintext alphabet and of `cw` (complemented under the beaufort
flag) in the ciphertext alphabet, combine mod 26 (direction per the variant
flag), read the ciphertext alphabet there, complement again if beaufort. -/
def quagEncChar (P C : List ℤ) (variant beaufort : Bool) (cw x : ℤ) : ℤ :=
  let posn_keyword := posIn P x
  let cw2 := if beaufort then 26 - cw - 1 else cw
  let posn_cycleword := posIn C cw2
  let indx := if variant then fixMod (posn_keyword - posn_cycleword)
              else fixMod (posn_keyword + posn_cycleword)
  let e := elemAt C indx
  if beaufort then 26 - e - 1 else e

/-- Loop body of quagmire_decrypt (src/polyalphabetic.c:1320-1356) for one
ciphertext character `y`. -/
def quagDecChar (P C : List ℤ) (variant beaufort : Bool) (cw y : ℤ) : ℤ :=
  let posn_keyword := posIn C y
  let cw2 := if beaufort then 26 - cw - 1 else cw
  let posn_cycleword := posIn C cw2
  let indx := if variant then fixMod (posn_keyword + posn_cycleword)
              else fixMod (posn_keyword - posn_cycleword)
  let d := elemAt P indx
  if beaufort then 26 - d - 1 else d

/-- quagmire_encrypt from src/polyalphabetic.c:1358: period-`K.length`
polyalphabetic tableau encryption of the whole message. -/
def quagmire_encrypt (plaintext P C K : List ℤ) (variant beaufort : Bool) : List ℤ :=
  (List.range plaintext.length).map (fun i =>
    quagEncChar P C variant beaufort (K.getD (i % K.length) 0) (plaintext.getD i 0))

/-- quagmire_decrypt from src/polyalphabetic.c:1320. -/
def quagmire_decrypt (cipher P C K : List ℤ) (variant beaufort : Bool) : List ℤ :=
  (List.range cipher.length).map (fun i =>
    quagDecChar P C variant beaufort (K.getD (i % K.length) 0) (cipher.getD i 0))

/-- beaufort_decrypt from the Beaufort translation unit (src/unnamed/part_000,
first file): `P = (K - C + 26) % 26` position by position. -/
def beaufort_decrypt (cipher K : List ℤ) : List ℤ :=
  (List.range cipher.length).map (fun i =>
    Int.tmod (K.getD (i % K.length) 0 - cipher.getD i 0 + 26) 26)

/-- beaufort_encrypt: the source is literally a call to beaufort_decrypt. -/
def beaufort_encrypt (plaintext K : List ℤ) : List ℤ :=
  beaufort_decrypt plaintext K

/-- porta_core from src/porta.c:50-71: reciprocal half-alphabet substitution
with shift `key / 2`. -/
def porta_core (input K : List ℤ) : List ℤ :=
  (List.range input.length).map (fun i =>
    let input_val := input.getD i 0
    let key_val := K.getD (i % K.length) 0
    let shift := Int.tdiv key_val 2
    if input_val < 13 then Int.tmod (input_val + shift) 13 + 13
    else Int.tmod (input_val - 13 - shift + 26) 13)

/-- porta_decrypt from src/porta.c:73. -/
def porta_decrypt (input K : List ℤ) : List ℤ :=
  porta_core input K

/-- porta_encrypt from src/porta.c:77. -/
def porta_encrypt (input K : List ℤ) : List ℤ :=
  porta_core input K

/-- One-character round trip through the tableau with the beaufort flag off:
decryption inverts encryption for any permutation alphabets. -/
theorem quagDecChar_quagEncChar {P C : List ℤ} (hP : IsAlphPerm P)
    (hC : IsAlphPerm C) (variant : Bool) {cw x : ℤ}
    (hx0 : 0 ≤ x) (hx1 : x < 26) :
    quagDecChar P C variant false cw (quagEncChar P C variant false cw x) = x := by
  unfold quagEncChar quagDecChar
  simp only [Bool.false_eq_true, if_false]
  set q := posIn C cw with hq
  set p := posIn P x with hp
  have hxP : x ∈ P := hP.mem_of_range hx0 hx1
  have hp0 : 0 ≤ p := posIn_nonneg P x
  have hp1 : p < 26 := by
    have := posIn_lt hxP
    rwa [hP.1] at this
  cases variant with
  | false =>
    simp only [Bool.false_eq_true, if_false]
    have hidx0 := fixMod_nonneg (p + q)
    have hidx1 := fixMod_lt (p + q)
    have hC26 : ((C.length : ℤ)) = 26 := by simp [hC.1]
    have hmem : elemAt C (fixMod (p + q)) ∈ C := elemAt_mem hidx0 (by omega)
    have hpos : posIn C (elemAt C (fixMod (p + q))) = fixMod (p + q) :=
      posIn_elemAt hC.2.1 hidx0 (by omega)
    rw [hpos]
    have harith : fixMod (fixMod (p + q) - q) = p := by
      simp only [fixMod_eq]
      omega
    rw [harith, hp, elemAt_posIn hxP]
  | true =>
    simp only [reduceIte]
    have hidx0 := fixMod_nonneg (p - q)
    have hidx1 := fixMod_lt (p - q)
    have hC26 : ((C.length : ℤ)) = 26 := by simp [hC.1]
    have hpos : posIn C (elemAt C (fixMod (p - q))) = fixMod (p - q) :=
      posIn_elemAt hC.2.1 hidx0 (by omega)
    rw [hpos]
    have harith : fixMod (fixMod (p - q) + q) = p := by
      simp only [fixMod_eq]
      omega
    rw [harith, hp, elemAt_posIn hxP]

/-- One-character round trip in the other direction: encryption inverts
decryption with the beaufort flag off. -/
theorem quagEncChar_quagDecChar {P C : List ℤ} (hP : IsAlphPerm P)
    (hC : IsAlphPerm C) (variant : Bool) {cw y : ℤ}
    (hy0 : 0 ≤ y) (hy1 : y < 26) :
    quagEncChar P C variant false cw (quagDecChar P C variant false cw y) = y := by
  unfold quagEncChar quagDecChar
  simp only [Bool.false_eq_true, if_false]
  set q := posIn C cw with hq
  set p := posIn C y with hp
  have hyC : y ∈ C := hC.mem_of_range hy0 hy1
  have hp0 : 0 ≤ p := posIn_nonneg C y
  have hp1 : p < 26 := by
    have := posIn_lt hyC
    rwa [hC.1] at this
  have hP26 : ((P.length : ℤ)) = 26 := by simp [hP.1]
  have hC26 : ((C.length : ℤ)) = 26 := by simp [hC.1]
  cases variant with
  | false =>
    simp only [Bool.false_eq_true, if_false]
    have hidx0 := fixMod_nonneg (p - q)
    have hidx1 := fixMod_lt (p - q)
    have hpos : posIn P (elemAt P (fixMod (p - q))) = fixMod (p - q) :=
      posIn_elemAt hP.2.1 hidx0 (by omega)
    rw [hpos]
    have harith : fixMod (fixMod (p - q) + q) = p := by
      simp only [fixMod_eq]
      omega
    rw [harith, hp, elemAt_posIn hyC]
  | true =>
    simp only [reduceIte]
    have hidx0 := fixMod_nonneg (p + q)
    have hidx1 := fixMod_lt (p + q)
    have hpos : posIn P (elemAt P (fixMod (p + q))) = fixMod (p + q) :=
      posIn_elemAt hP.2.1 hidx0 (by omega)
    rw [hpos]
    have harith : fixMod (fixMod (p + q) - q) = p := by
      simp only [fixMod_eq]
      omega
    rw [harith, hp, elemAt_posIn hyC]

theorem quagmire_encrypt_length (m P C K : List ℤ) (v b : Bool) :
    (quagmire_encrypt m P C K v b).length = m.length := by
  unfold quagmire_encrypt
  simp

theorem quagmire_decrypt_length (c P C K : List ℤ) (v b : Bool) :
    (quagmire_decrypt c P C K v b).length = c.length := by
  unfold quagmire_decrypt
  simp

/-- Whole-message round trip, decrypt after encrypt, beaufort flag off. -/
theorem quagmire_decrypt_encrypt {P C K m : List ℤ} (hP : IsAlphPerm P)
    (hC : IsAlphPerm C) (variant : Bool)
    (hm : ∀ x ∈ m, 0 ≤ x ∧ x < 26) :
    quagmire_decrypt (quagmire_encrypt m P C K variant false) P C K variant false = m := by
  apply List.ext_getElem
  · rw [quagmire_decrypt_length, quagmire_encrypt_length]
  · intro i hi him
    have hlen : (quagmire_encrypt m P C K variant false).length = m.length :=
      quagmire_encrypt_length m P C K variant false
    unfold quagmire_decrypt
    rw [List.getElem_map, List.getElem_range]
    have hienc : i < (quagmire_encrypt m P C K variant false).length := by
      rw [hlen]; exact him
    have hgd : (quagmire_encrypt m P C K variant false).getD i 0
        = quagEncChar P C variant false (K.getD (i % K.length) 0) (m.getD i 0) := by
      rw [List.getD_eq_getElem _ 0 hienc]
      unfold quagmire_encrypt
      rw [List.getElem_map, List.getElem_range]
    rw [hgd]
    have hmi : m.getD i 0 = m[i] := List.getD_eq_getElem m 0 him
    have hmem : m[i] ∈ m := List.getElem_mem him
    rcases hm _ hmem with ⟨h0, h1⟩
    rw [quagDecChar_quagEncChar hP hC variant (by rw [hmi]; exact h0)
      (by rw [hmi]; exact h1), hmi]

/-- Whole-message round trip, encrypt after decrypt, beaufort flag off. -/
theorem quagmire_encrypt_decrypt {P C K ctext : List ℤ} (hP : IsAlphPerm P)
    (hC : IsAlphPerm C) (variant : Bool)
    (hc : ∀ x ∈ ctext, 0 ≤ x ∧ x < 26) :
    quagmire_encrypt (quagmire_decrypt ctext P C K variant false) P C K variant false = ctext := by
  apply List.ext_getElem
  · rw [quagmire_encrypt_length, quagmire_decrypt_length]
  · intro i hi hic
    have hlen : (quagmire_decrypt ctext P C K variant false).length = ctext.length :=
      quagmire_decrypt_length ctext P C K variant false
    unfold quagmire_encrypt
    rw [List.getElem_map, List.getElem_range]
    have hidec : i < (quagmire_decrypt ctext P C K variant false).length := by
      rw [hlen]; exact hic
    have hgd : (quagmire_decrypt ctext P C K variant false).getD i 0
        = quagDecChar P C variant false (K.getD (i % K.length) 0) (ctext.getD i 0) := by
      rw [List.getD_eq_getElem _ 0 hidec]
      unfold quagmire_decrypt
      rw [List.getElem_map, List.getElem_range]
    rw [hgd]
    have hci : ctext.getD i 0 = ctext[i] := List.getD_eq_getElem ctext 0 hic
    have hmem : ctext[i] ∈ ctext := List.getElem_mem hic
    rcases hc _ hmem with ⟨h0, h1⟩
    rw [quagEncChar_quagDecChar hP hC variant (by rw [hci]; exact h0)
      (by rw [hci]; exact h1), hci]

/-- Claim C1 (amended): with the beaufort flag off, for both values of the
variant flag and every well-formed state (P and C permutations of [0,25],
cycleword of length at least 1 over [0,26)), quagmire_decrypt inverts
quagmire_encrypt and vice versa on sequences over [0,25]; Beaufort and Porta
are self-inverse, beaufort_encrypt = beaufort_decrypt and
porta_encrypt = porta_decrypt as functions.  (With the beaufort flag on the
pair is not mutually inverse; see the counterexample.) -/
theorem C1_tableau_roundtrip (P C K m ctext : List ℤ) (variant : Bool)
    (hP : IsAlphPerm P) (hC : IsAlphPerm C)
    (hK : 1 ≤ K.length ∧ ∀ x ∈ K, 0 ≤ x ∧ x < 26)
    (hm : ∀ x ∈ m, 0 ≤ x ∧ x < 26) (hc : ∀ x ∈ ctext, 0 ≤ x ∧ x < 26) :
    quagmire_decrypt (quagmire_encrypt m P C K variant false) P C K variant false = m
    ∧ quagmire_encrypt (quagmire_decrypt ctext P C K variant false) P C K variant false = ctext
    ∧ beaufort_encrypt = beaufort_decrypt
    ∧ porta_encrypt = porta_decrypt := by
  refine ⟨quagmire_decrypt_encrypt hP hC variant hm,
    quagmire_encrypt_decrypt hP hC variant hc, ?_, ?_⟩
  · funext plain K
    rfl
  · funext input K
    rfl

/-- Witness for C1 at a concrete state: straight alphabets, cycleword D,
message AF, ciphertext ZA. -/
theorem C1_tableau_roundtrip_witness :
    (IsAlphPerm (straight_alphabet 26)
      ∧ (1 ≤ ([3] : List ℤ).length ∧ ∀ x ∈ ([3] : List ℤ), 0 ≤ x ∧ x < 26)
      ∧ (∀ x ∈ ([0, 5] : List ℤ), 0 ≤ x ∧ x < 26)
      ∧ (∀ x ∈ ([25, 0] : List ℤ), 0 ≤ x ∧ x < 26))
    ∧ (quagmire_decrypt
        (quagmire_encrypt [0, 5] (straight_alphabet 26) (straight_alphabet 26) [3] true false)
        (straight_alphabet 26) (straight_alphabet 26) [3] true false = [0, 5]
      ∧ quagmire_encrypt
        (quagmire_decrypt [25, 0] (straight_alphabet 26) (straight_alphabet 26) [3] true false)
        (straight_alphabet 26) (straight_alphabet 26) [3] true false = [25, 0]
      ∧ beaufort_encrypt = beaufort_decrypt
      ∧ porta_encrypt = porta_decrypt) :=
  ⟨⟨by decide, by decide, by decide, by decide⟩,
    C1_tableau_roundtrip (straight_alphabet 26) (straight_alphabet 26) [3] [0, 5] [25, 0] true
      (by decide) (by decide) (by decide) (by decide) (by decide)⟩

/-- Counterexample forcing the amendment of C1: with the beaufort flag on
(the configuration polyalphabetic.c uses for Beaufort ciphers,
cfg->beaufort), decryption does not invert encryption: with straight
alphabets and cycleword A, the message B encrypts to Z but Z decrypts
to Z, not B. -/
theorem C1_beaufort_flag_cex :
    quagmire_decrypt
      (quagmire_encrypt [1] (straight_alphabet 26) (straight_alphabet 26) [0] false true)
      (straight_alphabet 26) (straight_alphabet 26) [0] false true ≠ [1] := by
  decide

/-- index_of_coincidence from src/utils.c:106-113: tally the 26 letter
frequencies, sum f*(f-1), divide by len*(len-1).  The source divides
unconditionally; for len < 2 the numerator and denominator are both zero and
the IEEE double division 0.0/0.0 yields NaN, modelled here as `none`. -/
def index_of_coincidence (text : List ℤ) : Option ℚ :=
  let len : ℤ := text.length
  let num : ℚ := ∑ i in Finset.range 26,
    ((text.count (i : ℤ) : ℚ) * ((text.count (i : ℤ) : ℚ) - 1))
  if len * (len - 1) = 0 then none
  else some (num / ((len * (len - 1) : ℤ) : ℚ))

/-- Total-function version of the IoC used inside the period estimator;
agrees with index_of_coincidence whenever the text has length at least 2
(iocQ_eq). -/
def iocQ (text : List ℤ) : ℚ :=
  (∑ i in Finset.range 26,
    ((text.count (i : ℤ) : ℚ) * ((text.count (i : ℤ) : ℚ) - 1)))
  / (((text.length : ℤ) * ((text.length : ℤ) - 1) : ℤ) : ℚ)

theorem iocQ_eq {text : List ℤ} (h : 2 ≤ text.length) :
    index_of_coincidence text = some (iocQ text) := by
  unfold index_of_coincidence iocQ
  have hd : ((text.length : ℤ)) * ((text.length : ℤ) - 1) ≠ 0 := by
    have : (2 : ℤ) ≤ (text.length : ℤ) := by exact_mod_cast h
    nlinarith
  simp only [if_neg hd]

/-- Claim C10 (amended): for texts of length at least 2,
index_of_coincidence returns the unbiased form sum f_i(f_i - 1) / (N(N-1))
over the 26 letter frequencies; for length below 2 the division 0/0 is
performed and the result is NaN (`none`), not 0. -/
theorem C10_ioc (text : List ℤ) :
    (2 ≤ text.length →
      index_of_coincidence text =
        some ((∑ i in Finset.range 26,
          ((text.count (i : ℤ) : ℚ) * ((text.count (i : ℤ) : ℚ) - 1)))
          / (((text.length : ℤ) * ((text.length : ℤ) - 1) : ℤ) : ℚ)))
    ∧ (text.length < 2 → index_of_coincidence text = none) := by
  constructor
  · intro h
    exact iocQ_eq h
  · intro h
    unfold index_of_coincidence
    have hd : ((text.length : ℤ)) * ((text.length : ℤ) - 1) = 0 := by
      have h2 : text.length = 0 ∨ text.length = 1 := by omega
      rcases h2 with h0 | h0 <;> simp [h0]
    simp [hd]

/-- Witness for C10 at the text ABA: length 3, frequencies f_A = 2,
f_B = 1, IoC = 2 / 6 = 1/3. -/
theorem C10_ioc_witness :
    2 ≤ ([0, 1, 0] : List ℤ).length
    ∧ index_of_coincidence [0, 1, 0] =
        some ((∑ i in Finset.range 26,
          ((([0, 1, 0] : List ℤ).count (i : ℤ) : ℚ)
            * ((([0, 1, 0] : List ℤ).count (i : ℤ) : ℚ) - 1)))
          / ((((([0, 1, 0] : List ℤ).length : ℤ))
            * ((([0, 1, 0] : List ℤ).length : ℤ) - 1) : ℤ) : ℚ)) :=
  ⟨by decide, (C10_ioc [0, 1, 0]).1 (by decide)⟩

/-- Counterexample forcing the amendment of C10: on the single-letter text
A (length 1 < 2) the function does not return 0 - the denominator
len*(len-1) is 0 and the C code computes 0.0/0.0 (NaN, modelled `none`). -/
theorem C10_ioc_cex : index_of_coincidence [(0 : ℤ)] ≠ some 0 := by
  decide

/-- Loop of autokey_decrypt (src/unnamed/part_000:121-180).  `ks` models the
key_stream buffer (primer followed by the plaintext recovered so far), `out`
the decrypted prefix and `i` the current position.  The source scans the
ciphertext alphabet for the ciphertext character and the current key
character; when either scan fails (posn == -1) it stores plaintext 0 and,
via `continue`, skips extending the key stream. -/
def autokeyLoop (P C : List ℤ) : List ℤ → List ℤ → List ℤ → ℕ → List ℤ × List ℤ
  | [], ks, out, _ => (out, ks)
  | ct :: rest, ks, out, i =>
    let k_char := ks.getD i 0
    if ct ∈ C ∧ k_char ∈ C then
      let indx := fixMod (posIn C ct - posIn C k_char)
      let p_val := elemAt P indx
      autokeyLoop P C rest (ks ++ [p_val]) (out ++ [p_val]) (i + 1)
    else
      autokeyLoop P C rest ks (out ++ [0]) (i + 1)

/-- autokey_decrypt from src/unnamed/part_000:121-180: the decrypted text. -/
def autokey_decrypt (cipher P C primer : List ℤ) : List ℤ :=
  (autokeyLoop P C cipher primer [] 0).1

/-- The final content of the key_stream buffer of autokey_decrypt. -/
def autokeyKeyStream (cipher P C primer : List ℤ) : List ℤ :=
  (autokeyLoop P C cipher primer [] 0).2

theorem getD_pref_eq {l₁ l₂ : List ℤ} (h : l₁ <+: l₂) {j : ℕ}
    (hj : j < l₁.length) : l₂.getD j 0 = l₁.getD j 0 := by
  have hj2 : j < l₂.length := lt_of_lt_of_le hj h.length_le
  rw [List.getD_eq_getElem _ 0 hj, List.getD_eq_getElem _ 0 hj2]
  exact (List.IsPrefix.getElem h hj).symm

/-- Invariant of the autokey loop under full permutation alphabets: the key
stream stays `primer ++ out`, the fallback branch is never taken (each step
extends both buffers), and every output character is produced by the
Quagmire rule from the ciphertext character and the key-stream character at
the same position. -/
theorem autokeyLoop_spec {P C : List ℤ} (hP : IsAlphPerm P) (hC : IsAlphPerm C)
    (cipher : List ℤ) (hcipher : ∀ x ∈ cipher, 0 ≤ x ∧ x < 26) :
    ∀ (primer out : List ℤ),
      (∀ x ∈ primer, 0 ≤ x ∧ x < 26) → (∀ x ∈ out, 0 ≤ x ∧ x < 26) →
      1 ≤ primer.length →
      (autokeyLoop P C cipher (primer ++ out) out out.length).2
          = primer ++ (autokeyLoop P C cipher (primer ++ out) out out.length).1
      ∧ (autokeyLoop P C cipher (primer ++ out) out out.length).1.length
          = out.length + cipher.length
      ∧ out <+: (autokeyLoop P C cipher (primer ++ out) out out.length).1
      ∧ (∀ x ∈ (autokeyLoop P C cipher (primer ++ out) out out.length).1,
          0 ≤ x ∧ x < 26)
      ∧ (∀ j, out.length ≤ j →
          j < out.length + cipher.length →
          (autokeyLoop P C cipher (primer ++ out) out out.length).1.getD j 0
            = elemAt P (fixMod (posIn C (cipher.getD (j - out.length) 0)
              - posIn C ((primer
                ++ (autokeyLoop P C cipher (primer ++ out) out out.length).1).getD j 0)))) := by
  induction cipher with
  | nil =>
    intro primer out hpr hout hL
    refine ⟨rfl, by simp [autokeyLoop], List.prefix_rfl, hout, ?_⟩
    intro j hj1 hj2
    simp [autokeyLoop] at hj1 hj2 ⊢
    omega
  | cons ct rest ih =>
    intro primer out hpr hout hL
    have hct : 0 ≤ ct ∧ ct < 26 := hcipher ct (by simp)
    have hrest : ∀ x ∈ rest, 0 ≤ x ∧ x < 26 := by
      intro x hx; exact hcipher x (by simp [hx])
    -- the key character read at this step
    have hread : out.length < (primer ++ out).length := by
      simp; omega
    have hk_mem : (primer ++ out).getD out.length 0 ∈ primer ++ out := by
      rw [List.getD_eq_getElem _ 0 hread]
      exact List.getElem_mem hread
    have hk_range : 0 ≤ (primer ++ out).getD out.length 0
        ∧ (primer ++ out).getD out.length 0 < 26 := by
      rcases List.mem_append.mp hk_mem with h | h
      · exact hpr _ h
      · exact hout _ h
    have hcond : ct ∈ C ∧ (primer ++ out).getD out.length 0 ∈ C :=
      ⟨hC.mem_of_range hct.1 hct.2,
        hC.mem_of_range hk_range.1 hk_range.2⟩
    -- the produced plaintext character
    set k_char := (primer ++ out).getD out.length 0 with hk_def
    set p_val := elemAt P (fixMod (posIn C ct - posIn C k_char)) with hp_def
    have hp_range : 0 ≤ p_val ∧ p_val < 26 := by
      have h0 := fixMod_nonneg (posIn C ct - posIn C k_char)
      have h1 := fixMod_lt (posIn C ct - posIn C k_char)
      have hmem : p_val ∈ P := by
        rw [hp_def]
        exact elemAt_mem h0 (by rw [hP.1]; exact_mod_cast h1)
      exact hP.2.2 _ hmem
    have hstep : autokeyLoop P C (ct :: rest) (primer ++ out) out out.length
        = autokeyLoop P C rest (primer ++ (out ++ [p_val])) (out ++ [p_val])
            (out ++ [p_val]).length := by
      show (if ct ∈ C ∧ k_char ∈ C then
          autokeyLoop P C rest ((primer ++ out) ++ [p_val]) (out ++ [p_val])
            (out.length + 1)
        else autokeyLoop P C rest (primer ++ out) (out ++ [0]) (out.length + 1))
        = _
      rw [if_pos hcond]
      congr 1
      · rw [List.append_assoc]
      · simp
    have hout2 : ∀ x ∈ out ++ [p_val], 0 ≤ x ∧ x < 26 := by
      intro x hx
      rcases List.mem_append.mp hx with h | h
      · exact hout _ h
      · simp at h; subst h; exact hp_range
    obtain ⟨ih1, ih2, ih3, ih4, ih5⟩ := ih hrest primer (out ++ [p_val]) hpr hout2 hL
    rw [hstep]
    refine ⟨ih1, ?_, ?_, ih4, ?_⟩
    · rw [ih2, List.length_append, List.length_cons]
      simp
      omega
    · exact List.IsPrefix.trans (List.prefix_append out [p_val]) ih3
    · intro j hj1 hj2
      rcases eq_or_lt_of_le hj1 with heq | hlt
      · -- the character produced at this very step
        subst heq
        have hjlen : out.length < (autokeyLoop P C rest
            (primer ++ (out ++ [p_val])) (out ++ [p_val])
            (out ++ [p_val]).length).1.length := by
          rw [ih2]; simp; omega
        have hpre : (out ++ [p_val]) <+: (autokeyLoop P C rest
            (primer ++ (out ++ [p_val])) (out ++ [p_val])
            (out ++ [p_val]).length).1 := ih3
        have hgd : (autokeyLoop P C rest (primer ++ (out ++ [p_val]))
            (out ++ [p_val]) (out ++ [p_val]).length).1.getD out.length 0
            = p_val := by
          rw [getD_pref_eq hpre (by simp)]
          rw [List.getD_append_right _ _ _ _ (le_refl _)]
          simp
        rw [hgd]
        have hcipher0 : (ct :: rest).getD (out.length - out.length) 0 = ct := by
          simp
        rw [hcipher0]
        -- the key-stream character at this position in the final stream
        have hksfinal : (primer ++ (autokeyLoop P C rest
            (primer ++ (out ++ [p_val])) (out ++ [p_val])
            (out ++ [p_val]).length).1).getD out.length 0 = k_char := by
          have houtpre : out <+: (autokeyLoop P C rest
              (primer ++ (out ++ [p_val])) (out ++ [p_val])
              (out ++ [p_val]).length).1 :=
            List.IsPrefix.trans (List.prefix_append out [p_val]) ih3
          have hpre2 : (primer ++ out) <+: (primer ++ (autokeyLoop P C rest
              (primer ++ (out ++ [p_val])) (out ++ [p_val])
              (out ++ [p_val]).length).1) :=
            (List.prefix_append_right_inj primer).mpr houtpre
          rw [getD_pref_eq hpre2 hread]
        rw [hksfinal, hp_def]
      · -- a later character, handled by the induction hypothesis
        have ha1 : (out ++ [p_val]).length ≤ j := by
          simp only [List.length_append, List.length_singleton]
          omega
        have ha2 : j < (out ++ [p_val]).length + rest.length := by
          simp only [List.length_cons] at hj2
          simp only [List.length_append, List.length_singleton]
          omega
        have := ih5 j ha1 ha2
        have hcd : rest.getD (j - (out ++ [p_val]).length) 0
            = (ct :: rest).getD (j - out.length) 0 := by
          simp only [List.length_append, List.length_singleton]
          have hj3 : j - out.length = (j - (out.length + 1)) + 1 := by omega
          rw [hj3]
          simp
        rw [this, hcd]

/-- Claim C8: when both alphabets passed to autokey_decrypt are full
permutations of [0,25] (and the ciphertext and primer are letter indices,
with a nonempty primer), the fallback branch emitting plaintext 0 is never
executed - every step extends the key stream, so it ends with length exactly
L+N, equal to the primer followed by the recovered plaintext, and the key
character consumed at position i is primer[i] for i < L and the plaintext
recovered at position i-L for i >= L. -/
theorem C8_autokey_keystream (P C cipher primer : List ℤ)
    (hP : IsAlphPerm P) (hC : IsAlphPerm C)
    (hcipher : ∀ x ∈ cipher, 0 ≤ x ∧ x < 26)
    (hprimer : ∀ x ∈ primer, 0 ≤ x ∧ x < 26)
    (hL : 1 ≤ primer.length) :
    autokeyKeyStream cipher P C primer
        = primer ++ autokey_decrypt cipher P C primer
    ∧ (autokeyKeyStream cipher P C primer).length
        = primer.length + cipher.length
    ∧ (autokey_decrypt cipher P C primer).length = cipher.length
    ∧ ∀ i, i < cipher.length →
        (autokey_decrypt cipher P C primer).getD i 0
          = elemAt P (fixMod (posIn C (cipher.getD i 0)
              - posIn C (if i < primer.length then primer.getD i 0
                  else (autokey_decrypt cipher P C primer).getD
                    (i - primer.length) 0))) := by
  have hspec := autokeyLoop_spec hP hC cipher hcipher primer [] hprimer
    (by simp) hL
  rw [List.append_nil] at hspec
  obtain ⟨h1, h2, _, _, h5⟩ := hspec
  have hout : autokey_decrypt cipher P C primer
      = (autokeyLoop P C cipher primer [] 0).1 := rfl
  have hks : autokeyKeyStream cipher P C primer
      = (autokeyLoop P C cipher primer [] 0).2 := rfl
  have hlen1 : (autokey_decrypt cipher P C primer).length = cipher.length := by
    rw [hout]
    simpa using h2
  refine ⟨by rw [hks, hout]; simpa using h1, ?_, hlen1, ?_⟩
  · rw [hks]
    have := congrArg List.length h1
    simp only [List.length_nil] at h2
    simp only [List.length_append] at this
    simpa [h2] using this
  · intro i hi
    have h5i := h5 i (by simp) (by simpa using hi)
    simp only [Nat.sub_zero, List.length_nil, Nat.zero_add] at h5i
    rw [hout]
    rw [h5i]
    congr 2
    rcases lt_or_le i primer.length with hcase | hcase
    · rw [if_pos hcase, List.getD_append _ _ _ _ hcase]
    · rw [if_neg (not_lt.mpr hcase), List.getD_append_right _ _ _ _ hcase]

/-- Witness for C8: straight alphabets, primer C (index 2), ciphertext AB. -/
theorem C8_autokey_keystream_witness :
    (IsAlphPerm (straight_alphabet 26)
      ∧ (∀ x ∈ ([0, 1] : List ℤ), 0 ≤ x ∧ x < 26)
      ∧ (∀ x ∈ ([2] : List ℤ), 0 ≤ x ∧ x < 26)
      ∧ 1 ≤ ([2] : List ℤ).length)
    ∧ autokeyKeyStream [0, 1] (straight_alphabet 26) (straight_alphabet 26) [2]
        = [2] ++ autokey_decrypt [0, 1] (straight_alphabet 26) (straight_alphabet 26) [2]
    ∧ (autokey_decrypt [0, 1] (straight_alphabet 26) (straight_alphabet 26) [2]).length
        = ([0, 1] : List ℤ).length :=
  ⟨⟨by decide, by decide, by decide, by decide⟩,
    (C8_autokey_keystream (straight_alphabet 26) (straight_alphabet 26) [0, 1] [2]
      (by decide) (by decide) (by decide) (by decide) (by decide)).1,
    (C8_autokey_keystream (straight_alphabet 26) (straight_alphabet 26) [0, 1] [2]
      (by decide) (by decide) (by decide) (by decide) (by decide)).2.2.1⟩

theorem getD_set_self (l : List ℤ) (i : ℕ) (v : ℤ) (h : i < l.length) :
    (l.set i v).getD i 0 = v := by
  rw [List.getD_eq_getElem _ 0 (by simp [h])]
  exact List.getElem_set_self _

theorem getD_set_ne (l : List ℤ) (i j : ℕ) (v : ℤ) (h : i ≠ j) :
    (l.set i v).getD j 0 = l.getD j 0 := by
  unfold List.getD
  rw [List.get?_eq_getElem?, List.get?_eq_getElem?, List.getElem?_set_ne h]

/-- INACTIVE sentinel from polyalphabetic.h:41. -/
def INACTIVE : ℤ := -9999

/-- The cycleword character implied by one crib in constrain_cycleword
(src/unnamed/part_001:1511-1541): p = position of the ciphertext character
in C, q = position of the crib plaintext character in P,
rot = (variant ? q-p : p-q) mod 26, value C[rot]. -/
def cribRotChar (cipher P C : List ℤ) (variant : Bool) (pos : ℕ) (plain : ℤ) : ℤ :=
  let posn_keyword := posIn C (cipher.getD pos 0)
  let posn_cycleword := posIn P plain
  let indx := if variant then fixMod (posn_cycleword - posn_keyword)
              else fixMod (posn_keyword - posn_cycleword)
  elemAt C indx

/-- Inner crib scan of constrain_cycleword for one slot `i`: `acc` is
crib_cyclewords[i] (INACTIVE until the first crib of the slot commits it),
`cw` the cycleword being written.  An `error` models the early
`return true` (contradiction), carrying the partially written cycleword. -/
def constrainSlot (cipher P C : List ℤ) (variant : Bool) (L i : ℕ) :
    List (ℕ × ℤ) → ℤ → List ℤ → Except (List ℤ) (ℤ × List ℤ)
  | [], acc, cw => Except.ok (acc, cw)
  | pc :: rest, acc, cw =>
    if pc.1 % L = i then
      let v := cribRotChar cipher P C variant pc.1 pc.2
      if acc = INACTIVE then
        constrainSlot cipher P C variant L i rest v (cw.set i v)
      else if acc ≠ v then Except.error cw
      else constrainSlot cipher P C variant L i rest acc cw
    else constrainSlot cipher P C variant L i rest acc cw

/-- Outer slot loop of constrain_cycleword: slots in order 0..L-1; a
contradiction aborts with `true` and the cycleword written so far. -/
def constrainLoop (cipher P C : List ℤ) (variant : Bool) (L : ℕ)
    (cribs : List (ℕ × ℤ)) : List ℕ → List ℤ → Bool × List ℤ
  | [], cw => (false, cw)
  | i :: rest, cw =>
    match constrainSlot cipher P C variant L i cribs INACTIVE cw with
    | Except.error cwFail => (true, cwFail)
    | Except.ok (_, cw2) => constrainLoop cipher P C variant L cribs rest cw2

/-- constrain_cycleword from src/unnamed/part_001:1498-1553.  Cribs are
(position, plaintext-letter) pairs; returns (contradiction, cycleword). -/
def constrain_cycleword (cipher : List ℤ) (cribs : List (ℕ × ℤ))
    (P C cw : List ℤ) (L : ℕ) (variant : Bool) : Bool × List ℤ :=
  if cribs = [] then (false, cw)
  else constrainLoop cipher P C variant L cribs (List.range L) cw

/-- Two cribs landing in the same slot imply different cycleword values. -/
def SlotConflict (cipher P C : List ℤ) (variant : Bool) (L : ℕ)
    (cribs : List (ℕ × ℤ)) : Prop :=
  ∃ pc ∈ cribs, ∃ qc ∈ cribs, pc.1 % L = qc.1 % L ∧
    cribRotChar cipher P C variant pc.1 pc.2 ≠ cribRotChar cipher P C variant qc.1 qc.2

instance (cipher P C : List ℤ) (variant : Bool) (L : ℕ) (cribs : List (ℕ × ℤ)) :
    Decidable (SlotConflict cipher P C variant L cribs) := by
  unfold SlotConflict; infer_instance

/-- The implied cycleword value of a crib is an alphabet letter, never the
INACTIVE sentinel. -/
theorem cribRotChar_range {cipher P C : List ℤ} (hC : IsAlphPerm C)
    (variant : Bool) (pos : ℕ) (plain : ℤ) :
    0 ≤ cribRotChar cipher P C variant pos plain
    ∧ cribRotChar cipher P C variant pos plain < 26 := by
  unfold cribRotChar
  apply hC.2.2
  apply elemAt_mem
  · split <;> exact fixMod_nonneg _
  · rw [hC.1]
    split <;> exact_mod_cast fixMod_lt _

theorem constrainSlot_committed_ok (cipher P C : List ℤ) (variant : Bool)
    (L i : ℕ) :
    ∀ (cribs : List (ℕ × ℤ)) (acc : ℤ) (cw : List ℤ), acc ≠ INACTIVE →
      (∀ pc ∈ cribs, pc.1 % L = i →
        cribRotChar cipher P C variant pc.1 pc.2 = acc) →
      constrainSlot cipher P C variant L i cribs acc cw = Except.ok (acc, cw) := by
  intro cribs
  induction cribs with
  | nil => intro acc cw _ _; rfl
  | cons pc rest ih =>
    intro acc cw hacc hall
    by_cases hin : pc.1 % L = i
    · have hv : cribRotChar cipher P C variant pc.1 pc.2 = acc :=
        hall pc (by simp) hin
      simp only [constrainSlot, if_pos hin, if_neg hacc, hv, ne_eq,
        not_true_eq_false, if_false]
      exact ih acc cw hacc (fun qc hqc hqi => hall qc (by simp [hqc]) hqi)
    · simp only [constrainSlot, if_neg hin]
      exact ih acc cw hacc (fun qc hqc hqi => hall qc (by simp [hqc]) hqi)

theorem constrainSlot_committed_error (cipher P C : List ℤ) (variant : Bool)
    (L i : ℕ) :
    ∀ (cribs : List (ℕ × ℤ)) (acc : ℤ) (cw : List ℤ), acc ≠ INACTIVE →
      (∃ pc ∈ cribs, pc.1 % L = i ∧
        cribRotChar cipher P C variant pc.1 pc.2 ≠ acc) →
      ∃ cwE, constrainSlot cipher P C variant L i cribs acc cw = Except.error cwE := by
  intro cribs
  induction cribs with
  | nil =>
    intro acc cw _ h
    simp at h
  | cons pc rest ih =>
    intro acc cw hacc hex
    by_cases hin : pc.1 % L = i
    · by_cases hv : cribRotChar cipher P C variant pc.1 pc.2 = acc
      · -- the head agrees, a later crib must disagree
        have hex2 : ∃ qc ∈ rest, qc.1 % L = i ∧
            cribRotChar cipher P C variant qc.1 qc.2 ≠ acc := by
          rcases hex with ⟨qc, hqc, hqi, hqv⟩
          rcases List.mem_cons.mp hqc with rfl | hmem
          · exact absurd hv hqv
          · exact ⟨qc, hmem, hqi, hqv⟩
        simp only [constrainSlot, if_pos hin, if_neg hacc, hv, ne_eq,
          not_true_eq_false, if_false]
        exact ih acc cw hacc hex2
      · refine ⟨cw, ?_⟩
        simp only [constrainSlot, if_pos hin, if_neg hacc]
        rw [if_pos (by exact fun h => hv h.symm)]
    · have hex2 : ∃ qc ∈ rest, qc.1 % L = i ∧
          cribRotChar cipher P C variant qc.1 qc.2 ≠ acc := by
        rcases hex with ⟨qc, hqc, hqi, hqv⟩
        rcases List.mem_cons.mp hqc with rfl | hmem
        · exact absurd hqi hin
        · exact ⟨qc, hmem, hqi, hqv⟩
      simp only [constrainSlot, if_neg hin]
      exact ih acc cw hacc hex2

theorem constrainSlot_empty (cipher P C : List ℤ) (variant : Bool)
    (L i : ℕ) :
    ∀ (cribs : List (ℕ × ℤ)) (acc : ℤ) (cw : List ℤ),
      (∀ pc ∈ cribs, pc.1 % L ≠ i) →
      constrainSlot cipher P C variant L i cribs acc cw = Except.ok (acc, cw) := by
  intro cribs
  induction cribs with
  | nil => intro acc cw _; rfl
  | cons pc rest ih =>
    intro acc cw hnone
    have hin : ¬ pc.1 % L = i := hnone pc (by simp)
    simp only [constrainSlot, if_neg hin]
    exact ih acc cw (fun qc hqc => hnone qc (by simp [hqc]))

/-- One slot with conflicting cribs ends in the early contradiction return. -/
theorem constrainSlot_inactive_error (cipher P C : List ℤ) (variant : Bool)
    (L i : ℕ) (hC : IsAlphPerm C) :
    ∀ (cribs : List (ℕ × ℤ)) (cw : List ℤ),
      (∃ pc ∈ cribs, ∃ qc ∈ cribs, pc.1 % L = i ∧ qc.1 % L = i ∧
        cribRotChar cipher P C variant pc.1 pc.2
          ≠ cribRotChar cipher P C variant qc.1 qc.2) →
      ∃ cwE, constrainSlot cipher P C variant L i cribs INACTIVE cw
        = Except.error cwE := by
  intro cribs
  induction cribs with
  | nil =>
    intro cw h
    simp at h
  | cons pc rest ih =>
    intro cw hex
    by_cases hin : pc.1 % L = i
    · set v := cribRotChar cipher P C variant pc.1 pc.2 with hv_def
      have hvne : v ≠ INACTIVE := by
        have := @cribRotChar_range cipher P C hC variant pc.1 pc.2
        rw [hv_def]
        unfold INACTIVE
        omega
      have hstep : constrainSlot cipher P C variant L i (pc :: rest) INACTIVE cw
          = constrainSlot cipher P C variant L i rest v (cw.set i v) := by
        simp only [constrainSlot, if_pos hin, if_pos rfl, eq_self_iff_true,
          if_true]
      rw [hstep]
      -- some crib in the slot must disagree with v
      have hdis : ∃ qc ∈ rest, qc.1 % L = i ∧
          cribRotChar cipher P C variant qc.1 qc.2 ≠ v := by
        rcases hex with ⟨a, ha, b, hb, hai, hbi, hab⟩
        rcases List.mem_cons.mp ha with rfl | ha2
        · rcases List.mem_cons.mp hb with rfl | hb2
          · exact absurd rfl hab
          · exact ⟨b, hb2, hbi, fun h => hab (h.trans hv_def).symm⟩
        · rcases List.mem_cons.mp hb with rfl | hb2
          · exact ⟨a, ha2, hai, fun h => hab (h.trans hv_def)⟩
          · by_cases hav : cribRotChar cipher P C variant a.1 a.2 = v
            · exact ⟨b, hb2, hbi, fun h => hab (hav.trans h.symm)⟩
            · exact ⟨a, ha2, hai, hav⟩
      exact constrainSlot_committed_error cipher P C variant L i rest v
        (cw.set i v) hvne hdis
    · have hex2 : ∃ a ∈ rest, ∃ b ∈ rest, a.1 % L = i ∧ b.1 % L = i ∧
          cribRotChar cipher P C variant a.1 a.2
            ≠ cribRotChar cipher P C variant b.1 b.2 := by
        rcases hex with ⟨a, ha, b, hb, hai, hbi, hab⟩
        rcases List.mem_cons.mp ha with rfl | ha2
        · exact absurd hai hin
        rcases List.mem_cons.mp hb with rfl | hb2
        · exact absurd hbi hin
        exact ⟨a, ha2, b, hb2, hai, hbi, hab⟩
      simp only [constrainSlot, if_neg hin]
      exact ih cw hex2

/-- One slot whose cribs all agree commits the common value: the slot is
written once and the scan returns without contradiction. -/
theorem constrainSlot_inactive_ok (cipher P C : List ℤ) (variant : Bool)
    (L i : ℕ) (hC : IsAlphPerm C) :
    ∀ (cribs : List (ℕ × ℤ)) (cw : List ℤ)
      (pc0 : ℕ × ℤ), pc0 ∈ cribs → pc0.1 % L = i →
      (∀ pc ∈ cribs, ∀ qc ∈ cribs, pc.1 % L = i → qc.1 % L = i →
        cribRotChar cipher P C variant pc.1 pc.2
          = cribRotChar cipher P C variant qc.1 qc.2) →
      constrainSlot cipher P C variant L i cribs INACTIVE cw
        = Except.ok (cribRotChar cipher P C variant pc0.1 pc0.2,
            cw.set i (cribRotChar cipher P C variant pc0.1 pc0.2)) := by
  intro cribs
  induction cribs with
  | nil =>
    intro cw pc0 h
    simp at h
  | cons pc rest ih =>
    intro cw pc0 hpc0 hpc0i hall
    by_cases hin : pc.1 % L = i
    · set v := cribRotChar cipher P C variant pc.1 pc.2 with hv_def
      have hvne : v ≠ INACTIVE := by
        have := @cribRotChar_range cipher P C hC variant pc.1 pc.2
        rw [hv_def]
        unfold INACTIVE
        omega
      have hv0 : cribRotChar cipher P C variant pc0.1 pc0.2 = v :=
        hall pc0 hpc0 pc (by simp) hpc0i hin
      have hstep : constrainSlot cipher P C variant L i (pc :: rest) INACTIVE cw
          = constrainSlot cipher P C variant L i rest v (cw.set i v) := by
        simp only [constrainSlot, if_pos hin, if_pos rfl, eq_self_iff_true,
          if_true]
      rw [hstep, hv0]
      exact constrainSlot_committed_ok cipher P C variant L i rest v
        (cw.set i v) hvne
        (fun qc hqc hqi => hall qc (by simp [hqc]) pc (by simp) hqi hin)
    · have hpc0r : pc0 ∈ rest := by
        rcases List.mem_cons.mp hpc0 with rfl | h
        · exact absurd hpc0i hin
        · exact h
      simp only [constrainSlot, if_neg hin]
      exact ih cw pc0 hpc0r hpc0i
        (fun a ha b hb hai hbi => hall a (by simp [ha]) b (by simp [hb]) hai hbi)

/-- Conflict localized to one slot. -/
def ConflictAt (cipher P C : List ℤ) (variant : Bool) (L : ℕ)
    (cribs : List (ℕ × ℤ)) (i : ℕ) : Prop :=
  ∃ pc ∈ cribs, ∃ qc ∈ cribs, pc.1 % L = i ∧ qc.1 % L = i ∧
    cribRotChar cipher P C variant pc.1 pc.2
      ≠ cribRotChar cipher P C variant qc.1 qc.2

instance (cipher P C : List ℤ) (variant : Bool) (L : ℕ)
    (cribs : List (ℕ × ℤ)) (i : ℕ) :
    Decidable (ConflictAt cipher P C variant L cribs i) := by
  unfold ConflictAt; infer_instance

theorem constrainLoop_true_iff (cipher P C : List ℤ) (variant : Bool)
    (L : ℕ) (cribs : List (ℕ × ℤ)) (hC : IsAlphPerm C) :
    ∀ (S : List ℕ) (cw : List ℤ),
      ((constrainLoop cipher P C variant L cribs S cw).1 = true
        ↔ ∃ i ∈ S, ConflictAt cipher P C variant L cribs i) := by
  intro S
  induction S with
  | nil =>
    intro cw
    simp [constrainLoop]
  | cons i rest ih =>
    intro cw
    by_cases hconf : ConflictAt cipher P C variant L cribs i
    · obtain ⟨cwE, hE⟩ := constrainSlot_inactive_error cipher P C variant L i hC
        cribs cw hconf
      simp only [constrainLoop, hE]
      simp only [true_iff]
      exact ⟨i, by simp, hconf⟩
    · by_cases hocc : ∃ pc0 ∈ cribs, pc0.1 % L = i
      · obtain ⟨pc0, hpc0, hpc0i⟩ := hocc
        have hall : ∀ pc ∈ cribs, ∀ qc ∈ cribs, pc.1 % L = i → qc.1 % L = i →
            cribRotChar cipher P C variant pc.1 pc.2
              = cribRotChar cipher P C variant qc.1 qc.2 := by
          intro pc hpc qc hqc hpi hqi
          by_contra hne
          exact hconf ⟨pc, hpc, qc, hqc, hpi, hqi, hne⟩
        have hok := constrainSlot_inactive_ok cipher P C variant L i hC
          cribs cw pc0 hpc0 hpc0i hall
        simp only [constrainLoop, hok]
        rw [ih]
        constructor
        · rintro ⟨j, hj, hcj⟩
          exact ⟨j, by simp [hj], hcj⟩
        · rintro ⟨j, hj, hcj⟩
          rcases List.mem_cons.mp hj with rfl | hj2
          · exact absurd hcj hconf
          · exact ⟨j, hj2, hcj⟩
      · push_neg at hocc
        have hok := constrainSlot_empty cipher P C variant L i cribs INACTIVE cw
          (fun pc hpc => hocc pc hpc)
        simp only [constrainLoop, hok]
        rw [ih]
        constructor
        · rintro ⟨j, hj, hcj⟩
          exact ⟨j, by simp [hj], hcj⟩
        · rintro ⟨j, hj, hcj⟩
          rcases List.mem_cons.mp hj with rfl | hj2
          · exact absurd hcj hconf
          · exact ⟨j, hj2, hcj⟩

theorem constrainLoop_writes (cipher P C : List ℤ) (variant : Bool)
    (L : ℕ) (cribs : List (ℕ × ℤ)) (hC : IsAlphPerm C) :
    ∀ (S : List ℕ) (cw : List ℤ), S.Nodup →
      (∀ i ∈ S, i < cw.length) →
      (∀ i ∈ S, ¬ ConflictAt cipher P C variant L cribs i) →
      (constrainLoop cipher P C variant L cribs S cw).1 = false
      ∧ (∀ pc ∈ cribs, pc.1 % L ∈ S →
          (constrainLoop cipher P C variant L cribs S cw).2.getD (pc.1 % L) 0
            = cribRotChar cipher P C variant pc.1 pc.2)
      ∧ (∀ j, (j ∉ S ∨ ∀ pc ∈ cribs, pc.1 % L ≠ j) →
          (constrainLoop cipher P C variant L cribs S cw).2.getD j 0
            = cw.getD j 0)
      ∧ (constrainLoop cipher P C variant L cribs S cw).2.length = cw.length := by
  intro S
  induction S with
  | nil =>
    intro cw _ _ _
    refine ⟨rfl, ?_, ?_, rfl⟩
    · intro pc _ h
      simp at h
    · intro j _
      rfl
  | cons i rest ih =>
    intro cw hnd hlen hnoconf
    have hconf_i : ¬ ConflictAt cipher P C variant L cribs i :=
      hnoconf i (by simp)
    have hnd_rest : rest.Nodup := (List.nodup_cons.mp hnd).2
    have hi_rest : i ∉ rest := (List.nodup_cons.mp hnd).1
    by_cases hocc : ∃ pc0 ∈ cribs, pc0.1 % L = i
    · obtain ⟨pc0, hpc0, hpc0i⟩ := hocc
      have hall : ∀ pc ∈ cribs, ∀ qc ∈ cribs, pc.1 % L = i → qc.1 % L = i →
          cribRotChar cipher P C variant pc.1 pc.2
            = cribRotChar cipher P C variant qc.1 qc.2 := by
        intro pc hpc qc hqc hpi hqi
        by_contra hne
        exact hconf_i ⟨pc, hpc, qc, hqc, hpi, hqi, hne⟩
      set v0 := cribRotChar cipher P C variant pc0.1 pc0.2 with hv0_def
      have hok := constrainSlot_inactive_ok cipher P C variant L i hC
        cribs cw pc0 hpc0 hpc0i hall
      have hilen : i < cw.length := hlen i (by simp)
      have hlen2 : ∀ j ∈ rest, j < (cw.set i v0).length := by
        intro j hj
        rw [List.length_set]
        exact hlen j (by simp [hj])
      obtain ⟨ihF, ihW, ihU, ihL⟩ := ih (cw.set i v0) hnd_rest hlen2
        (fun j hj => hnoconf j (by simp [hj]))
      have hstep : constrainLoop cipher P C variant L cribs (i :: rest) cw
          = constrainLoop cipher P C variant L cribs rest (cw.set i v0) := by
        simp only [constrainLoop, hok]
      rw [hstep]
      refine ⟨ihF, ?_, ?_, by rw [ihL, List.length_set]⟩
      · intro pc hpc hmem
        rcases List.mem_cons.mp hmem with heq | hmem2
        · -- slot i: untouched by the remaining slots, holds v0
          have hwrote : (constrainLoop cipher P C variant L cribs rest
              (cw.set i v0)).2.getD (pc.1 % L) 0 = (cw.set i v0).getD (pc.1 % L) 0 := by
            apply ihU
            left
            rw [heq]
            exact hi_rest
          rw [hwrote, heq, getD_set_self cw i v0 hilen]
          exact (hall pc hpc pc0 hpc0 heq hpc0i).symm
        · exact ihW pc hpc hmem2
      · intro j hj
        have hj_rest : j ∉ rest ∨ ∀ pc ∈ cribs, pc.1 % L ≠ j := by
          rcases hj with hj | hj
          · left; exact fun h => hj (by simp [h])
          · right; exact hj
        have hji : j ≠ i := by
          rcases hj with hj | hj
          · exact fun h => hj (by simp [h])
          · intro h
            exact hj pc0 hpc0 (by rw [hpc0i, h])
        rw [ihU j hj_rest, getD_set_ne cw i j v0 (fun h => hji h.symm)]
    · push_neg at hocc
      have hok := constrainSlot_empty cipher P C variant L i cribs INACTIVE cw
        (fun pc hpc => hocc pc hpc)
      have hstep : constrainLoop cipher P C variant L cribs (i :: rest) cw
          = constrainLoop cipher P C variant L cribs rest cw := by
        simp only [constrainLoop, hok]
      rw [hstep]
      obtain ⟨ihF, ihW, ihU, ihL⟩ := ih cw hnd_rest
        (fun j hj => hlen j (by simp [hj]))
        (fun j hj => hnoconf j (by simp [hj]))
      refine ⟨ihF, ?_, ?_, ihL⟩
      · intro pc hpc hmem
        rcases List.mem_cons.mp hmem with heq | hmem2
        · exact absurd heq (hocc pc hpc)
        · exact ihW pc hpc hmem2
      · intro j hj
        apply ihU
        rcases hj with hj | hj
        · left; exact fun h => hj (by simp [h])
        · right; exact hj

theorem slotConflict_iff (cipher P C : List ℤ) (variant : Bool) (L : ℕ)
    (cribs : List (ℕ × ℤ)) (hL : 1 ≤ L) :
    SlotConflict cipher P C variant L cribs
      ↔ ∃ i ∈ List.range L, ConflictAt cipher P C variant L cribs i := by
  constructor
  · rintro ⟨pc, hpc, qc, hqc, heq, hne⟩
    refine ⟨pc.1 % L, ?_, pc, hpc, qc, hqc, rfl, heq.symm, hne⟩
    rw [List.mem_range]
    exact Nat.mod_lt _ (by omega)
  · rintro ⟨i, _, pc, hpc, qc, hqc, hpi, hqi, hne⟩
    exact ⟨pc, hpc, qc, hqc, by rw [hpi, hqi], hne⟩

/-- Claim C6: for permutation alphabets P and C, period L >= 1 and a
cycleword buffer of length L, constrain_cycleword returns contradiction
exactly when two cribs falling in the same slot imply different cycleword
values C[rot]; when there is no contradiction it writes C[rot] into slot
pos mod L for every crib and leaves crib-free slots unchanged; with no
cribs it returns false and the cycleword untouched. -/
theorem C6_constrain_cycleword (cipher P C cw : List ℤ)
    (cribs : List (ℕ × ℤ)) (L : ℕ) (variant : Bool)
    (hP : IsAlphPerm P) (hC : IsAlphPerm C) (hL : 1 ≤ L)
    (hcw : cw.length = L) :
    (cribs = [] → constrain_cycleword cipher cribs P C cw L variant = (false, cw))
    ∧ ((constrain_cycleword cipher cribs P C cw L variant).1 = true
        ↔ SlotConflict cipher P C variant L cribs)
    ∧ ((constrain_cycleword cipher cribs P C cw L variant).1 = false →
        (∀ pc ∈ cribs,
          (constrain_cycleword cipher cribs P C cw L variant).2.getD (pc.1 % L) 0
            = cribRotChar cipher P C variant pc.1 pc.2)
        ∧ (∀ j, j < L → (∀ pc ∈ cribs, pc.1 % L ≠ j) →
            (constrain_cycleword cipher cribs P C cw L variant).2.getD j 0
              = cw.getD j 0)) := by
  refine ⟨fun h => by unfold constrain_cycleword; rw [if_pos h], ?_, ?_⟩
  · by_cases hnil : cribs = []
    · subst hnil
      unfold constrain_cycleword
      rw [if_pos rfl]
      simp [SlotConflict]
    · unfold constrain_cycleword
      rw [if_neg hnil]
      rw [constrainLoop_true_iff cipher P C variant L cribs hC]
      exact (slotConflict_iff cipher P C variant L cribs hL).symm
  · intro hfalse
    by_cases hnil : cribs = []
    · subst hnil
      refine ⟨fun pc h => by simp at h, fun j _ _ => ?_⟩
      unfold constrain_cycleword
      rw [if_pos rfl]
    · have hnoconf : ∀ i ∈ List.range L,
          ¬ ConflictAt cipher P C variant L cribs i := by
        intro i hi hcf
        have h1 : (constrain_cycleword cipher cribs P C cw L variant).1 = true := by
          unfold constrain_cycleword
          rw [if_neg hnil]
          rw [constrainLoop_true_iff cipher P C variant L cribs hC]
          exact ⟨i, hi, hcf⟩
        rw [hfalse] at h1
        exact Bool.false_ne_true h1
      obtain ⟨_, hW, hU, _⟩ := constrainLoop_writes cipher P C variant L cribs hC
        (List.range L) cw (List.nodup_range L)
        (fun i hi => by rw [hcw]; exact List.mem_range.mp hi) hnoconf
      constructor
      · intro pc hpc
        have hmem : pc.1 % L ∈ List.range L := by
          rw [List.mem_range]
          exact Nat.mod_lt _ (by omega)
        unfold constrain_cycleword
        rw [if_neg hnil]
        exact hW pc hpc hmem
      · intro j hjL hjfree
        unfold constrain_cycleword
        rw [if_neg hnil]
        exact hU j (Or.inr hjfree)

/-- Witness for C6: straight alphabets, ciphertext AB, one crib (plaintext C
at position 0), period 1. -/
theorem C6_constrain_cycleword_witness :
    (IsAlphPerm (straight_alphabet 26) ∧ 1 ≤ 1
      ∧ ([0] : List ℤ).length = 1)
    ∧ (([((0 : ℕ), (2 : ℤ))] : List (ℕ × ℤ)) = [] →
        constrain_cycleword [0, 1] [(0, 2)] (straight_alphabet 26)
          (straight_alphabet 26) [0] 1 false = (false, [0]))
    ∧ ((constrain_cycleword [0, 1] [(0, 2)] (straight_alphabet 26)
          (straight_alphabet 26) [0] 1 false).1 = true
        ↔ SlotConflict [0, 1] (straight_alphabet 26) (straight_alphabet 26)
            false 1 [(0, 2)]) :=
  ⟨⟨by decide, by decide, by decide⟩,
    (C6_constrain_cycleword [0, 1] (straight_alphabet 26) (straight_alphabet 26)
      [0] [(0, 2)] 1 false (by decide) (by decide) (by decide) (by decide)).1,
    (C6_constrain_cycleword [0, 1] (straight_alphabet 26) (straight_alphabet 26)
      [0] [(0, 2)] 1 false (by decide) (by decide) (by decide) (by decide)).2.1⟩

/-- Cipher type codes from polyalphabetic.h:16-29. -/
def VIGENERE : ℤ := 0

def QUAGMIRE_1 : ℤ := 1

def QUAGMIRE_2 : ℤ := 2

def QUAGMIRE_3 : ℤ := 3

def QUAGMIRE_4 : ℤ := 4

def BEAUFORT : ℤ := 5

def PORTA : ℤ := 6

def AUTOKEY_0 : ℤ := 7

def AUTOKEY_1 : ℤ := 8

def AUTOKEY_2 : ℤ := 9

def AUTOKEY_3 : ℤ := 10

def AUTOKEY_4 : ℤ := 11

/-- CRIB_CHECK from polyalphabetic.h:14: the compile-time switch guarding the
`continue` that would skip a (period, keyword-length) combination failing
the crib precheck.  It is 0 in this build. -/
def CRIB_CHECK : Bool := false

/-- The 26x26 crib mark of cribs_satisfied_p, modelled as the list of cells
set to 1 (setting a cell twice leaves the mark unchanged, like the array
write `crib_frequencies[i][k] = 1`). -/
def insertMark (m : List (ℤ × ℤ)) (p : ℤ × ℤ) : List (ℤ × ℤ) :=
  if p ∈ m then m else p :: m

/-- The row/column scan of cribs_satisfied_p
(src/unnamed/part_001:1470-1490): some row, or some column, of the 26x26
mark holds more than one positive entry. -/
def rowColBad (m : List (ℤ × ℤ)) : Bool :=
  ((List.range 26).any (fun (ii : ℕ) =>
    decide (2 ≤ ((List.range 26).filter
      (fun (jj : ℕ) => decide (((ii : ℤ), (jj : ℤ)) ∈ m))).length)))
  || ((List.range 26).any (fun (jj : ℕ) =>
    decide (2 ≤ ((List.range 26).filter
      (fun (ii : ℕ) => decide (((ii : ℤ), (jj : ℤ)) ∈ m))).length)))

/-- One column of the precheck: mark each (crib letter, ciphertext letter)
pair in turn and fail as soon as a row or column exceeds one entry. -/
def colCheck : List (ℤ × ℤ) → List (ℤ × ℤ) → Bool
  | [], _ => true
  | p :: rest, m =>
    if rowColBad (insertMark m p) then false
    else colCheck rest (insertMark m p)

/-- The (crib plaintext letter, ciphertext letter) pairs contributed to
column `j` of period `L`: cribs whose position lies in the column. -/
def cribColumnPairs (cipher : List ℤ) (cribs : List (ℕ × ℤ)) (L j : ℕ) :
    List (ℤ × ℤ) :=
  (cribs.filter (fun pc => decide (pc.1 % L = j ∧ pc.1 < cipher.length))).map
    (fun pc => (pc.2, cipher.getD pc.1 0))

/-- cribs_satisfied_p from src/unnamed/part_001:1438-1496: true when no
column of the candidate period forces one plaintext letter onto two
ciphertext letters or vice versa; vacuously true without cribs. -/
def cribs_satisfied_p (cipher : List ℤ) (cribs : List (ℕ × ℤ)) (L : ℕ) : Bool :=
  if cribs = [] then true
  else (List.range L).all (fun j => colCheck (cribColumnPairs cipher cribs L j) [])

/-- The crib-compatibility gate of solve_cipher
(src/unnamed/part_001:626-637): for non-autokey types the precheck runs,
but the `continue` that skips the combination is compiled only under
CRIB_CHECK. -/
def solveSkipsTriple (cipherType : ℤ) (cipher : List ℤ)
    (cribs : List (ℕ × ℤ)) (L : ℕ) : Bool :=
  if cipherType ≠ AUTOKEY_0 ∧ cipherType ≠ AUTOKEY_1 ∧ cipherType ≠ AUTOKEY_2
      ∧ cipherType ≠ AUTOKEY_3 ∧ cipherType ≠ AUTOKEY_4 then
    if cribs_satisfied_p cipher cribs L = false then CRIB_CHECK else false
  else false

/-- Two marked cells share a row or a column of the 26x26 mark. -/
def MarkBad (m : List (ℤ × ℤ)) : Prop :=
  ∃ p ∈ m, ∃ q ∈ m, (p.1 = q.1 ∧ p.2 ≠ q.2) ∨ (p.2 = q.2 ∧ p.1 ≠ q.1)

instance (m : List (ℤ × ℤ)) : Decidable (MarkBad m) := by
  unfold MarkBad; infer_instance

theorem two_mem_of_two_le_length {l : List ℕ} (hnd : l.Nodup)
    (h : 2 ≤ l.length) : ∃ x ∈ l, ∃ y ∈ l, x ≠ y := by
  match l, h with
  | x :: y :: t, _ =>
    refine ⟨x, by simp, y, by simp, ?_⟩
    intro hxy
    subst hxy
    simp at hnd

theorem two_le_length_filter {p : ℕ → Bool} {x y : ℕ} (hx : x ∈ (List.range 26).filter p)
    (hy : y ∈ (List.range 26).filter p) (hxy : x ≠ y) :
    2 ≤ ((List.range 26).filter p).length := by
  have hnd : ((List.range 26).filter p).Nodup := (List.nodup_range 26).filter p
  have hsub : ({x, y} : Finset ℕ) ⊆ ((List.range 26).filter p).toFinset := by
    intro z hz
    rw [List.mem_toFinset]
    rcases Finset.mem_insert.mp hz with rfl | hz2
    · exact hx
    · rw [Finset.mem_singleton.mp hz2]
      exact hy
  have hcard : ({x, y} : Finset ℕ).card = 2 := by
    rw [Finset.card_insert_of_not_mem (by simp [hxy]), Finset.card_singleton]
  calc 2 = ({x, y} : Finset ℕ).card := hcard.symm
    _ ≤ ((List.range 26).filter p).toFinset.card := Finset.card_le_card hsub
    _ = ((List.range 26).filter p).length := by
        rw [List.toFinset_card_of_nodup hnd]

/-- The row/column scan fires exactly when the mark holds a conflicting
pair of cells (all cells being letter pairs). -/
theorem rowColBad_iff {m : List (ℤ × ℤ)}
    (hrange : ∀ p ∈ m, (0 ≤ p.1 ∧ p.1 < 26) ∧ (0 ≤ p.2 ∧ p.2 < 26)) :
    rowColBad m = true ↔ MarkBad m := by
  unfold rowColBad
  rw [Bool.or_eq_true, List.any_eq_true, List.any_eq_true]
  constructor
  · rintro (⟨ii, _, hcnt⟩ | ⟨jj, _, hcnt⟩)
    · rw [decide_eq_true_eq] at hcnt
      obtain ⟨x, hx, y, hy, hxy⟩ := two_mem_of_two_le_length
        ((List.nodup_range 26).filter _) hcnt
      have hx2 := List.mem_filter.mp hx
      have hy2 := List.mem_filter.mp hy
      rw [decide_eq_true_eq] at hx2 hy2
      refine ⟨((ii : ℤ), (x : ℤ)), hx2.2, ((ii : ℤ), (y : ℤ)), hy2.2,
        Or.inl ⟨rfl, ?_⟩⟩
      simp only [ne_eq]
      exact_mod_cast hxy
    · rw [decide_eq_true_eq] at hcnt
      obtain ⟨x, hx, y, hy, hxy⟩ := two_mem_of_two_le_length
        ((List.nodup_range 26).filter _) hcnt
      have hx2 := List.mem_filter.mp hx
      have hy2 := List.mem_filter.mp hy
      rw [decide_eq_true_eq] at hx2 hy2
      refine ⟨((x : ℤ), (jj : ℤ)), hx2.2, ((y : ℤ), (jj : ℤ)), hy2.2,
        Or.inr ⟨rfl, ?_⟩⟩
      simp only [ne_eq]
      exact_mod_cast hxy
  · rintro ⟨p, hp, q, hq, ⟨hrow, hne⟩ | ⟨hcol, hne⟩⟩
    · left
      obtain ⟨⟨hp10, hp11⟩, ⟨hp20, hp21⟩⟩ := hrange p hp
      obtain ⟨⟨hq10, hq11⟩, ⟨hq20, hq21⟩⟩ := hrange q hq
      refine ⟨p.1.toNat, by rw [List.mem_range]; omega, ?_⟩
      rw [decide_eq_true_eq]
      apply @two_le_length_filter _ p.2.toNat q.2.toNat
      · rw [List.mem_filter]
        refine ⟨by rw [List.mem_range]; omega, ?_⟩
        rw [decide_eq_true_eq]
        have : ((p.1.toNat : ℤ), (p.2.toNat : ℤ)) = p := by
          rw [Prod.ext_iff]
          constructor <;> simp <;> omega
        rw [this]
        exact hp
      · rw [List.mem_filter]
        refine ⟨by rw [List.mem_range]; omega, ?_⟩
        rw [decide_eq_true_eq]
        have : ((p.1.toNat : ℤ), (q.2.toNat : ℤ)) = q := by
          rw [Prod.ext_iff]
          constructor <;> simp <;> omega
        rw [this]
        exact hq
      · omega
    · right
      obtain ⟨⟨hp10, hp11⟩, ⟨hp20, hp21⟩⟩ := hrange p hp
      obtain ⟨⟨hq10, hq11⟩, ⟨hq20, hq21⟩⟩ := hrange q hq
      refine ⟨p.2.toNat, by rw [List.mem_range]; omega, ?_⟩
      rw [decide_eq_true_eq]
      apply @two_le_length_filter _ p.1.toNat q.1.toNat
      · rw [List.mem_filter]
        refine ⟨by rw [List.mem_range]; omega, ?_⟩
        rw [decide_eq_true_eq]
        have : ((p.1.toNat : ℤ), (p.2.toNat : ℤ)) = p := by
          rw [Prod.ext_iff]
          constructor <;> simp <;> omega
        rw [this]
        exact hp
      · rw [List.mem_filter]
        refine ⟨by rw [List.mem_range]; omega, ?_⟩
        rw [decide_eq_true_eq]
        have : ((q.1.toNat : ℤ), (p.2.toNat : ℤ)) = q := by
          rw [Prod.ext_iff]
          constructor <;> simp <;> omega
        rw [this]
        exact hq
      · omega

/-- The mark accumulated after processing a list of crib pairs. -/
def finalMark (pairs m : List (ℤ × ℤ)) : List (ℤ × ℤ) :=
  pairs.foldl insertMark m

theorem mem_insertMark {m : List (ℤ × ℤ)} {p q : ℤ × ℤ} :
    q ∈ insertMark m p ↔ q ∈ m ∨ q = p := by
  unfold insertMark
  split
  · constructor
    · exact fun h => Or.inl h
    · rintro (h | rfl)
      · exact h
      · assumption
  · simp [or_comm]

theorem mem_finalMark_iff (pairs : List (ℤ × ℤ)) :
    ∀ (m : List (ℤ × ℤ)) (q : ℤ × ℤ),
      q ∈ finalMark pairs m ↔ q ∈ m ∨ q ∈ pairs := by
  induction pairs with
  | nil =>
    intro m q
    simp [finalMark]
  | cons p rest ih =>
    intro m q
    unfold finalMark at ih ⊢
    rw [List.foldl_cons, ih (insertMark m p) q, mem_insertMark]
    constructor
    · rintro ((h | rfl) | h)
      · exact Or.inl h
      · exact Or.inr (by simp)
      · exact Or.inr (by simp [h])
    · rintro (h | h)
      · exact Or.inl (Or.inl h)
      · rcases List.mem_cons.mp h with rfl | h2
        · exact Or.inl (Or.inr rfl)
        · exact Or.inr h2

/-- The incremental early-return column scan fails exactly when the final
mark for the column holds a conflicting pair. -/
theorem colCheck_false_iff :
    ∀ (pairs m : List (ℤ × ℤ)),
      (∀ p ∈ m, (0 ≤ p.1 ∧ p.1 < 26) ∧ (0 ≤ p.2 ∧ p.2 < 26)) →
      (∀ p ∈ pairs, (0 ≤ p.1 ∧ p.1 < 26) ∧ (0 ≤ p.2 ∧ p.2 < 26)) →
      ¬ MarkBad m →
      (colCheck pairs m = false ↔ MarkBad (finalMark pairs m)) := by
  intro pairs
  induction pairs with
  | nil =>
    intro m _ _ hgood
    unfold colCheck finalMark
    simp only [List.foldl_nil]
    constructor
    · intro h
      exact absurd h (by simp)
    · intro h
      exact absurd h hgood
  | cons p rest ih =>
    intro m hm hpairs hgood
    have hp := hpairs p (by simp)
    have hm2 : ∀ q ∈ insertMark m p, (0 ≤ q.1 ∧ q.1 < 26) ∧ (0 ≤ q.2 ∧ q.2 < 26) := by
      intro q hq
      rcases mem_insertMark.mp hq with h | rfl
      · exact hm q h
      · exact hp
    by_cases hbad : MarkBad (insertMark m p)
    · have hrc : rowColBad (insertMark m p) = true := (rowColBad_iff hm2).mpr hbad
      unfold colCheck
      rw [if_pos hrc]
      simp only [true_iff]
      unfold finalMark
      rw [List.foldl_cons]
      -- the conflict persists to the final mark
      obtain ⟨a, ha, b, hb, hab⟩ := hbad
      refine ⟨a, ?_, b, ?_, hab⟩
      · rw [show List.foldl insertMark (insertMark m p) rest
            = finalMark rest (insertMark m p) from rfl, mem_finalMark_iff]
        exact Or.inl ha
      · rw [show List.foldl insertMark (insertMark m p) rest
            = finalMark rest (insertMark m p) from rfl, mem_finalMark_iff]
        exact Or.inl hb
    · have hrc : rowColBad (insertMark m p) = false := by
        rcases Bool.eq_false_or_eq_true (rowColBad (insertMark m p)) with h | h
        · exact absurd ((rowColBad_iff hm2).mp h) hbad
        · exact h
      unfold colCheck
      rw [if_neg (by rw [hrc]; exact Bool.false_ne_true)]
      have := ih (insertMark m p) hm2
        (fun q hq => hpairs q (by simp [hq])) hbad
      rw [this]
      unfold finalMark
      rw [List.foldl_cons]

theorem cribColumnPairs_range {cipher : List ℤ} {cribs : List (ℕ × ℤ)}
    {L j : ℕ} (hvals : ∀ pc ∈ cribs, 0 ≤ pc.2 ∧ pc.2 < 26)
    (hcipher : ∀ x ∈ cipher, 0 ≤ x ∧ x < 26) :
    ∀ p ∈ cribColumnPairs cipher cribs L j,
      (0 ≤ p.1 ∧ p.1 < 26) ∧ (0 ≤ p.2 ∧ p.2 < 26) := by
  intro p hp
  unfold cribColumnPairs at hp
  obtain ⟨pc, hpc, rfl⟩ := List.mem_map.mp hp
  have hfil := List.mem_filter.mp hpc
  rw [decide_eq_true_eq] at hfil
  refine ⟨hvals pc hfil.1, ?_⟩
  apply hcipher
  rw [List.getD_eq_getElem cipher 0 hfil.2.2]
  exact List.getElem_mem hfil.2.2

/-- Claim C3 (amended): cribs_satisfied_p returns true with no cribs, and
returns false exactly when some column of the period pairs one crib
plaintext letter with two distinct ciphertext letters or one ciphertext
letter with two distinct crib letters; but because CRIB_CHECK is 0 in
polyalphabetic.h the orchestrator never skips the combination - the hill
climber is invoked even when the precheck fails. -/
theorem C3_cribs_precheck (cipher : List ℤ) (cribs : List (ℕ × ℤ))
    (L : ℕ) (cipherType : ℤ)
    (hvals : ∀ pc ∈ cribs, 0 ≤ pc.2 ∧ pc.2 < 26)
    (hcipher : ∀ x ∈ cipher, 0 ≤ x ∧ x < 26) :
    (cribs = [] → cribs_satisfied_p cipher cribs L = true)
    ∧ (cribs_satisfied_p cipher cribs L = false ↔
        ∃ j, j < L ∧ ∃ p ∈ cribColumnPairs cipher cribs L j,
          ∃ q ∈ cribColumnPairs cipher cribs L j,
            (p.1 = q.1 ∧ p.2 ≠ q.2) ∨ (p.2 = q.2 ∧ p.1 ≠ q.1))
    ∧ solveSkipsTriple cipherType cipher cribs L = false := by
  refine ⟨fun h => by unfold cribs_satisfied_p; rw [if_pos h], ?_, ?_⟩
  · by_cases hnil : cribs = []
    · subst hnil
      unfold cribs_satisfied_p
      rw [if_pos rfl]
      constructor
      · intro h
        exact absurd h (by simp)
      · rintro ⟨j, _, p, hp, _⟩
        unfold cribColumnPairs at hp
        simp at hp
    · unfold cribs_satisfied_p
      rw [if_neg hnil, List.all_eq_false]
      constructor
      · rintro ⟨j, hj, hfail⟩
        rw [Bool.not_eq_true] at hfail
        have hiff := colCheck_false_iff (cribColumnPairs cipher cribs L j) []
          (by intro p hp; simp at hp)
          (cribColumnPairs_range hvals hcipher)
          (by intro h; obtain ⟨p, hp, _⟩ := h; simp at hp)
        obtain ⟨p, hp, q, hq, hpq⟩ := hiff.mp hfail
        rw [mem_finalMark_iff] at hp hq
        refine ⟨j, List.mem_range.mp hj, p, ?_, q, ?_, hpq⟩
        · rcases hp with h | h
          · simp at h
          · exact h
        · rcases hq with h | h
          · simp at h
          · exact h
      · rintro ⟨j, hj, p, hp, q, hq, hpq⟩
        refine ⟨j, List.mem_range.mpr hj, ?_⟩
        rw [Bool.not_eq_true]
        have hiff := colCheck_false_iff (cribColumnPairs cipher cribs L j) []
          (by intro r hr; simp at hr)
          (cribColumnPairs_range hvals hcipher)
          (by intro h; obtain ⟨r, hr, _⟩ := h; simp at hr)
        apply hiff.mpr
        refine ⟨p, ?_, q, ?_, hpq⟩
        · rw [mem_finalMark_iff]
          exact Or.inr hp
        · rw [mem_finalMark_iff]
          exact Or.inr hq
  · unfold solveSkipsTriple CRIB_CHECK
    split
    · split
      · rfl
      · rfl
    · rfl

/-- Witness for C3: ciphertext AA, a single crib A at position 0, period 1,
Quagmire III. -/
theorem C3_cribs_precheck_witness :
    ((∀ pc ∈ ([((0 : ℕ), (0 : ℤ))] : List (ℕ × ℤ)), 0 ≤ pc.2 ∧ pc.2 < 26)
      ∧ (∀ x ∈ ([0, 0] : List ℤ), 0 ≤ x ∧ x < 26))
    ∧ solveSkipsTriple QUAGMIRE_3 [0, 0] [(0, 0)] 1 = false :=
  ⟨⟨by decide, by decide⟩,
    (C3_cribs_precheck [0, 0] [(0, 0)] 1 QUAGMIRE_3 (by decide) (by decide)).2.2⟩

/-- Counterexample forcing the amendment of C3: ciphertext AA with cribs A
at position 0 and B at position 1 at period 1 fails the precheck (the
ciphertext letter A would decode to both A and B in the same column), yet
the orchestrator does not skip the combination - CRIB_CHECK is 0, so the
`continue` is compiled out and the hill climber still runs. -/
theorem C3_crib_skip_cex :
    cribs_satisfied_p [0, 0] [(0, 0), (1, 1)] 1 = false
    ∧ solveSkipsTriple QUAGMIRE_3 [0, 0] [(0, 0), (1, 1)] 1 = false := by
  constructor
  · decide
  · decide

/-- ngram_index_int-style index of the n-gram starting at `i`
(src/unnamed/part_001:1645-1651): sum of decrypted[i+j]*26^j. -/
def ngram_index (dec : List ℤ) (i n : ℕ) : ℤ :=
  ((List.range n).map (fun j => dec.getD (i + j) 0 * 26 ^ j)).sum

/-- ngram_score from src/unnamed/part_001:1641-1656: sum the table entries
of all n-grams of the decryption, scale by 26^n / (N - n).  The table is
modelled as a total function on indices. -/
def ngram_score (decrypted : List ℤ) (ngramData : ℤ → ℚ) (n : ℕ) : ℚ :=
  (26 : ℚ) ^ n *
    ((List.range (((decrypted.length : ℤ) - (n : ℤ) + 1).toNat)).map
      (fun i => ngramData (ngram_index decrypted i n))).sum
    / ((((decrypted.length : ℤ) - (n : ℤ)) : ℤ) : ℚ)

/-- crib_score from src/unnamed/part_001:1630-1639: fraction of cribs the
decryption matches; 0 with no cribs. -/
def crib_score (text : List ℤ) (cribs : List (ℕ × ℤ)) : ℚ :=
  if cribs = [] then 0
  else ((cribs.countP (fun pc => decide (text.getD pc.1 0 = pc.2))) : ℚ)
    / (cribs.length : ℚ)

/-- vigenere_decrypt from src/vigenere.c:36: the Quagmire tableau with both
alphabets straight.  Modelled from the spec: src/ contains no definition of
the 8-argument quagmire_decrypt that vigenere.c and part_001 link against
(polyalphabetic.h:152 declares it); section 4.1 of the spec gives its rule,
which coincides with the 9-argument quagmire_decrypt of polyalphabetic.c at
beaufort = false. -/
def vigenere_decrypt (cipher K : List ℤ) (variant : Bool) : List ℤ :=
  quagmire_decrypt cipher (straight_alphabet 26) (straight_alphabet 26) K
    variant false

/-- The decryption dispatch at the top of state_score
(src/unnamed/part_001:1568-1586): Porta, Beaufort, the Autokey range,
Vigenere, else Quagmire I-IV. -/
def state_decrypted (cipherType : ℤ) (variant : Bool)
    (cipher P C K : List ℤ) : List ℤ :=
  if cipherType = PORTA then porta_decrypt cipher K
  else if cipherType = BEAUFORT then beaufort_decrypt cipher K
  else if AUTOKEY_0 ≤ cipherType ∧ cipherType ≤ AUTOKEY_4 then
    autokey_decrypt cipher P C K
  else if cipherType = VIGENERE then vigenere_decrypt cipher K variant
  else quagmire_decrypt cipher P C K variant false

/-- state_score from src/unnamed/part_001:1557-1602: decrypt, score the
cribs and the n-grams, and combine.  With cribs present the combination is
(wn*ngram + wc*crib) / (wn + wc) / 3.55; without cribs the raw n-gram
score.  The ioc and entropy weights are accepted but never read. -/
def state_score (cipherType : ℤ) (variant : Bool) (cipher : List ℤ)
    (cribs : List (ℕ × ℤ)) (P C K : List ℤ) (ngramData : ℤ → ℚ) (n : ℕ)
    (wn wc wi we : ℚ) : ℚ :=
  let decrypted := state_decrypted cipherType variant cipher P C K
  let decrypted_crib_score := crib_score decrypted cribs
  let decrypted_ngram_score := ngram_score decrypted ngramData n
  if 0 < cribs.length then
    ((wn * decrypted_ngram_score + wc * decrypted_crib_score) / (wn + wc))
      / (71 / 20)
  else decrypted_ngram_score

/-- Claim C2 (amended): with cribs present state_score returns
(wn*ngram + wc*crib)/(wn+wc) further divided by 3.55, using only the n-gram
and crib components - the ioc and entropy components and their weights are
ignored; with no cribs it returns the n-gram score alone. -/
theorem C2_state_score (cipherType : ℤ) (variant : Bool) (cipher : List ℤ)
    (cribs : List (ℕ × ℤ)) (P C K : List ℤ) (ngramData : ℤ → ℚ) (n : ℕ)
    (wn wc wi we : ℚ) :
    (0 < cribs.length →
      state_score cipherType variant cipher cribs P C K ngramData n wn wc wi we
        = ((wn * ngram_score (state_decrypted cipherType variant cipher P C K)
              ngramData n
            + wc * crib_score (state_decrypted cipherType variant cipher P C K)
              cribs) / (wn + wc)) / (71 / 20))
    ∧ (cribs.length = 0 →
      state_score cipherType variant cipher cribs P C K ngramData n wn wc wi we
        = ngram_score (state_decrypted cipherType variant cipher P C K)
            ngramData n) := by
  constructor
  · intro h
    unfold state_score
    dsimp only
    rw [if_pos h]
  · intro h
    unfold state_score
    dsimp only
    rw [if_neg (by omega)]

/-- Witness for C2 at a Beaufort instance with one crib. -/
theorem C2_state_score_witness :
    (0 < ([((0 : ℕ), (0 : ℤ))] : List (ℕ × ℤ)).length)
    ∧ state_score BEAUFORT false [0, 0] [(0, 0)] [] [] [0] (fun _ => 1) 1
        1 1 0 0
      = ((1 * ngram_score (state_decrypted BEAUFORT false [0, 0] [] [] [0])
            (fun _ => 1) 1
          + 1 * crib_score (state_decrypted BEAUFORT false [0, 0] [] [] [0])
            [(0, 0)]) / (1 + 1)) / (71 / 20) :=
  ⟨by decide,
    (C2_state_score BEAUFORT false [0, 0] [(0, 0)] [] [] [0] (fun _ => 1) 1
      1 1 0 0).1 (by decide)⟩

/-- Counterexample forcing the amendment of C2: at a concrete Beaufort
instance (ciphertext AA, cycleword A, crib A at position 0, unit n-gram
table, weights wn = wc = 1, wi = we = 0) the spec formula
(wn*ngram + wc*crib + wi*ioc_score + we*entropy_score)/(wn+wc+wi+we)
evaluates to 53/2 (the decryption is AA, so ngram = 52, crib = 1, and the
zero-weighted ioc_score and entropy_score terms - written out with the
section 4.7 formulas at IoC = 1 and H = 0 - vanish), while state_score
returns 530/71: the implementation divides by the extra 3.55 and never
reads wi or we. -/
theorem C2_state_score_cex :
    state_score BEAUFORT false [0, 0] [(0, 0)] [] [] [0] (fun _ => 1) 1
        1 1 0 0
      ≠ (1 * ngram_score (state_decrypted BEAUFORT false [0, 0] [] [] [0])
            (fun _ => 1) 1
          + 1 * crib_score (state_decrypted BEAUFORT false [0, 0] [] [] [0])
            [(0, 0)]
          + 0 * (1 / (1 + (26 * 1 - 1742 / 1000) ^ 2))
          + 0 * (1 / (1 + (0 - 285 / 100) ^ 2)))
        / (1 + 1 + 0 + 0) := by
  have hdec : state_decrypted BEAUFORT false [0, 0] [] [] [0] = [0, 0] := by
    decide
  have hng : ngram_score [(0 : ℤ), 0] (fun _ => 1) 1 = 52 := by
    unfold ngram_score
    norm_num
    simp
    norm_num
  have hcr : crib_score [(0 : ℤ), 0] [(0, 0)] = 1 := by
    unfold crib_score
    norm_num
  have hss : state_score BEAUFORT false [0, 0] [(0, 0)] [] [] [0]
      (fun _ => 1) 1 1 1 0 0 = 530 / 71 := by
    rw [(C2_state_score BEAUFORT false [0, 0] [(0, 0)] [] [] [0] (fun _ => 1) 1
      1 1 0 0).1 (by decide), hdec, hng, hcr]
    norm_num
  rw [hss, hdec, hng, hcr]
  norm_num

/-- Column k of period L: the ciphertext characters at positions
k, k+L, k+2L, ... (the caesar_column loop of mean_ioc,
src/unnamed/part_001:2047-2059). -/
def column (text : List ℤ) (L k : ℕ) : List ℤ :=
  ((List.range text.length).filter (fun idx => decide (idx % L = k))).map
    (fun idx => text.getD idx 0)

/-- mean_ioc from src/unnamed/part_001:2047: arithmetic mean of the
columnar IoCs of period L (total-function IoC, see iocQ). -/
def mean_ioc (text : List ℤ) (L : ℕ) : ℚ :=
  (((List.range L).map (fun k => iocQ (column text L k))).sum) / (L : ℚ)

/-- The raw mean-columnar IoC of candidate period i+1
(raw_iocs in estimate_cycleword_lengths, src/unnamed/part_001:1978-1984). -/
def estRawIocs (text : List ℤ) (Lmax : ℕ) : List ℚ :=
  (List.range Lmax).map (fun i => mean_ioc text (i + 1))

/-- mean of the Lmax period scores (src/unnamed/part_001:1987). -/
def estMean (text : List ℤ) (Lmax : ℕ) : ℚ :=
  (estRawIocs text Lmax).sum / (Lmax : ℚ)

/-- Biased population variance sum_sq/Lmax - mean^2
(src/unnamed/part_001:1988). -/
def estVariance (text : List ℤ) (Lmax : ℕ) : ℚ :=
  ((estRawIocs text Lmax).map (fun x => x * x)).sum / (Lmax : ℚ)
    - estMean text Lmax * estMean text Lmax

/-- Z-score with the degenerate-deviation guard
(src/unnamed/part_001:1993): 0 whenever the standard deviation is not
positive. -/
def zScoreOf (mean sd x : ℚ) : ℚ :=
  if 0 < sd then (x - mean) / sd else 0

/-- compare_candidates (src/unnamed/part_001:1895-1902) orders candidates
by IoC only, descending, and returns 0 on equal IoCs; C's qsort leaves
the relative order of equal elements unspecified.  A list is an
admissible qsort output exactly when it is pairwise non-increasing in
IoC (and a rearrangement of the input). -/
def CompareCandidatesSorted (l : List (ℕ × ℚ)) : Prop :=
  l.Pairwise (fun a b => b.2 ≤ a.2)

instance (l : List (ℕ × ℚ)) : Decidable (CompareCandidatesSorted l) := by
  unfold CompareCandidatesSorted
  infer_instance

/-- The accepted-candidate list built by estimate_cycleword_lengths before
the qsort call (src/unnamed/part_001:1997-2024): periods 1..Lmax whose
z-score and raw mean IoC meet both thresholds, paired with their IoC, in
ascending period order. -/
def estCandidates (text : List ℤ) (Lmax : ℕ) (tauSigma tauIoc sd : ℚ) :
    List (ℕ × ℚ) :=
  (List.range Lmax).filterMap (fun i =>
    if tauSigma ≤ zScoreOf (estMean text Lmax) sd (mean_ioc text (i + 1))
        ∧ tauIoc ≤ mean_ioc text (i + 1)
      then some (i + 1, mean_ioc text (i + 1)) else none)

/-- estimate_cycleword_lengths from src/unnamed/part_001:1958-2045.  Two
pieces are parameters supplied by the caller under hypotheses: sd stands
for the computed sqrt(max(variance, 0)) (the square root is irrational in
general), and `sorted` stands for the qsort result, constrained to a
rearrangement of estCandidates that compare_candidates accepts
(CompareCandidatesSorted) - C's qsort specifies nothing more. -/
def estimate_cycleword_lengths (text : List ℤ) (Lmax : ℕ)
    (tauSigma tauIoc sd : ℚ) (sorted : List (ℕ × ℚ)) : List ℕ :=
  sorted.map (fun c => c.1)

/-- Claim C5 (corrected): a period L in [1, Lmax] is accepted iff its
z-score (0 when the deviation vanishes) reaches the sigma threshold and
its raw mean columnar IoC reaches the IoC threshold, and the emitted
lengths are in descending (non-increasing) order of raw mean IoC - for
EVERY admissible qsort output, since compare_candidates returns 0 on
equal IoCs and qsort fixes no tie order (see C5_qsort_tie_cex for an
admissible output violating an ascending-L stable tie).  sd stands for
the computed sqrt(max(variance,0)); the text-length hypothesis keeps
every column long enough for the IoC to be defined. -/
theorem C5_estimate_cycleword_lengths (text : List ℤ) (Lmax : ℕ)
    (tauSigma tauIoc sd : ℚ) (sorted : List (ℕ × ℚ))
    (hL : 1 ≤ Lmax) (hN : 2 * Lmax ≤ text.length)
    (hsd0 : 0 ≤ sd)
    (hsd : sd * sd
      = if 0 < estVariance text Lmax then estVariance text Lmax else 0)
    (hperm : sorted.Perm (estCandidates text Lmax tauSigma tauIoc sd))
    (hsort : CompareCandidatesSorted sorted) :
    (∀ Lc, Lc ∈ estimate_cycleword_lengths text Lmax tauSigma tauIoc sd sorted ↔
      (1 ≤ Lc ∧ Lc ≤ Lmax
        ∧ tauSigma ≤ zScoreOf (estMean text Lmax) sd (mean_ioc text Lc)
        ∧ tauIoc ≤ mean_ioc text Lc))
    ∧ (estimate_cycleword_lengths text Lmax tauSigma tauIoc sd sorted).Pairwise
        (fun a b => mean_ioc text b ≤ mean_ioc text a)
    ∧ (sd = 0 → ∀ x : ℚ, zScoreOf (estMean text Lmax) sd x = 0) := by
  have hmem_cands : ∀ z, z ∈ estCandidates text Lmax tauSigma tauIoc sd ↔
      (∃ i, i < Lmax
        ∧ (tauSigma ≤ zScoreOf (estMean text Lmax) sd (mean_ioc text (i + 1))
          ∧ tauIoc ≤ mean_ioc text (i + 1))
        ∧ z = (i + 1, mean_ioc text (i + 1))) := by
    intro z
    unfold estCandidates
    rw [List.mem_filterMap]
    constructor
    · rintro ⟨i, hi, hfi⟩
      split at hfi
      · rw [Option.some_inj] at hfi
        exact ⟨i, List.mem_range.mp hi, by assumption, hfi.symm⟩
      · simp at hfi
    · rintro ⟨i, hi, hcond, rfl⟩
      refine ⟨i, List.mem_range.mpr hi, ?_⟩
      rw [if_pos hcond]
  have hmem_sorted : ∀ z, z ∈ sorted ↔
      z ∈ estCandidates text Lmax tauSigma tauIoc sd :=
    fun z => hperm.mem_iff
  have helem : ∀ z ∈ sorted, z.2 = mean_ioc text z.1 := by
    intro z hz
    obtain ⟨i, _, _, rfl⟩ := (hmem_cands z).mp ((hmem_sorted z).mp hz)
    rfl
  refine ⟨?_, ?_, ?_⟩
  · intro Lc
    show Lc ∈ sorted.map (fun c => c.1) ↔ _
    rw [List.mem_map]
    constructor
    · rintro ⟨z, hz, rfl⟩
      obtain ⟨i, hi, hcond, rfl⟩ := (hmem_cands z).mp ((hmem_sorted z).mp hz)
      exact ⟨by omega, by omega, hcond.1, hcond.2⟩
    · rintro ⟨h1, h2, h3, h4⟩
      refine ⟨(Lc, mean_ioc text Lc), ?_, rfl⟩
      apply (hmem_sorted _).mpr
      apply (hmem_cands _).mpr
      refine ⟨Lc - 1, by omega, ?_, ?_⟩
      · rw [show Lc - 1 + 1 = Lc by omega]
        exact ⟨h3, h4⟩
      · rw [show Lc - 1 + 1 = Lc by omega]
  · show (sorted.map (fun c => c.1)).Pairwise _
    rw [List.pairwise_map]
    apply @List.Pairwise.imp_of_mem (ℕ × ℚ) _ (fun a b => b.2 ≤ a.2) _
    · intro a b ha hb hab
      have ha2 := helem a ha
      have hb2 := helem b hb
      rw [← ha2, ← hb2]
      exact hab
    · exact hsort
  · intro h x
    rw [h]
    unfold zScoreOf
    rw [if_neg (lt_irrefl 0)]

/-! ### C7: derive_optimal_cycleword (part_001, lines 1305-1436)

For each column of the period the routine tries all 26 shifts, decrypts
the column under each shift according to the cipher type, scores the
letter counts against english_monograms, keeps the first best shift
(strict improvement over a running best initialised to -1.0) and stores
the ciphertext-alphabet CHARACTER at that shift. -/

/-- english_monograms from src/polyalphabetic.h:124-130, as exact
rationals. -/
def english_monograms : List ℚ :=
  [85517/1000000, 16048/1000000, 31644/1000000, 38712/1000000,
   120965/1000000, 21815/1000000, 20863/1000000, 49557/1000000,
   73251/1000000, 2198/1000000, 8087/1000000, 42065/1000000,
   25263/1000000, 71722/1000000, 74673/1000000, 20662/1000000,
   1040/1000000, 63327/1000000, 67282/1000000, 89381/1000000,
   26816/1000000, 10593/1000000, 18254/1000000, 1914/1000000,
   17214/1000000, 1138/1000000]

/-- ct_key_lookup (part_001:1320-1325): a 26-entry table initialised to
-1, then lookup[C[i]] = i for i = 0..25. -/
def ctKeyLookup (C : List ℤ) : List ℤ :=
  (List.range 26).foldl (fun tbl (i : ℕ) => tbl.set (elemAt C (i : ℤ)).toNat (i : ℤ))
    (List.replicate 26 (-1))

/-- Decryption of one ciphertext character y of the column under
candidate shift s, per cipher type (part_001:1350-1410).  The quagmire
branch reads posn_keyword from the lookup table. -/
def deriveDecChar (cfgType : ℤ) (variant : Bool) (P C : List ℤ)
    (s : ℕ) (y : ℤ) : ℤ :=
  if cfgType = PORTA then
    (if y < 13 then (y + ((s / 2 : ℕ) : ℤ)).tmod 13 + 13
     else (y - 13 - ((s / 2 : ℕ) : ℤ) + 26).tmod 13)
  else if cfgType = BEAUFORT then ((s : ℤ) - y + 26).tmod 26
  else if cfgType = VIGENERE then
    (if variant then ((s : ℤ) - y + 26).tmod 26
     else (y - (s : ℤ) + 26).tmod 26)
  else
    elemAt P (fixMod (if variant then elemAt (ctKeyLookup C) y + (s : ℤ)
                      else elemAt (ctKeyLookup C) y - (s : ℤ)))

/-- Decrypted column under shift s, skipping characters whose lookup is
-1 (the `if (posn_keyword == -1) continue` of part_001:1347). -/
def deriveColDec (cfgType : ℤ) (variant : Bool) (cipher P C : List ℤ)
    (L col s : ℕ) : List ℤ :=
  (column cipher L col).filterMap (fun y =>
    if elemAt (ctKeyLookup C) y = -1 then none
    else some (deriveDecChar cfgType variant P C s y))

/-- Dot-product score of shift s for this column
(part_001:1416-1425): sum of char_counts[i] * english_monograms[i]
divided by total_count, or 0.0 when the column contributed nothing. -/
def deriveScore (cfgType : ℤ) (variant : Bool) (cipher P C : List ℤ)
    (L col s : ℕ) : ℚ :=
  if 0 < (deriveColDec cfgType variant cipher P C L col s).length then
    (∑ i ∈ Finset.range 26,
      (((deriveColDec cfgType variant cipher P C L col s).count (i : ℤ) : ℚ))
        * english_monograms.getD i 0)
      / ((deriveColDec cfgType variant cipher P C L col s).length : ℚ)
  else 0

/-- The shift loop (part_001:1329-1432): best_score starts at -1.0,
best_shift_index at 0, and a shift replaces the best exactly when its
score strictly exceeds the running best. -/
def argmaxFold (f : ℕ → ℚ) (n : ℕ) : ℕ × ℚ :=
  (List.range n).foldl (fun acc s => if acc.2 < f s then (s, f s) else acc)
    (0, -1)

def bestShift (cfgType : ℤ) (variant : Bool) (cipher P C : List ℤ)
    (L col : ℕ) : ℕ :=
  (argmaxFold (fun s => deriveScore cfgType variant cipher P C L col s) 26).1

/-- derive_optimal_cycleword: for each column, store the ciphertext
keyword CHARACTER at the best shift (part_001:1434,
cycleword_state[col] = ciphertext_keyword_indices[best_shift_index]). -/
def derive_optimal_cycleword (cfgType : ℤ) (variant : Bool)
    (cipher P C cw : List ℤ) (L : ℕ) : List ℤ :=
  (List.range L).foldl
    (fun acc col =>
      acc.set col (elemAt C ((bestShift cfgType variant cipher P C L col : ℕ) : ℤ)))
    cw

theorem em_getD_nonneg (i : ℕ) : 0 ≤ english_monograms.getD i 0 := by
  rcases lt_or_ge i 26 with h | h
  · interval_cases i <;> norm_num [english_monograms]
  · have hlen : english_monograms.length = 26 := rfl
    rw [List.getD_eq_default _ _ (by rw [hlen]; omega)]

theorem deriveScore_nonneg (cfgType : ℤ) (variant : Bool) (cipher P C : List ℤ)
    (L col s : ℕ) : 0 ≤ deriveScore cfgType variant cipher P C L col s := by
  unfold deriveScore
  split
  · apply div_nonneg
    · apply Finset.sum_nonneg
      intro i _
      exact mul_nonneg (by positivity) (em_getD_nonneg i)
    · positivity
  · exact le_refl 0

theorem ctKeyLookup_aux {C : List ℤ} (hC : IsAlphPerm C) {x : ℤ}
    (hx0 : 0 ≤ x) (hx : x < 26) (L : List ℕ) :
    ∀ (tbl : List ℤ), tbl.length = 26 → (∀ i ∈ L, i < 26) →
      (L.foldl (fun t (i : ℕ) => t.set (elemAt C (i : ℤ)).toNat (i : ℤ)) tbl).length = 26
      ∧ elemAt (L.foldl (fun t (i : ℕ) => t.set (elemAt C (i : ℤ)).toNat (i : ℤ)) tbl) x
        = if (posIn C x).toNat ∈ L then posIn C x else elemAt tbl x := by
  induction L with
  | nil =>
    intro tbl htbl _
    simpa using htbl
  | cons i L' ih =>
    intro tbl htbl hmem
    rw [List.foldl_cons]
    have hi26 : i < 26 := hmem i (List.mem_cons_self i L')
    have htbl' : (tbl.set (elemAt C (i : ℤ)).toNat (i : ℤ)).length = 26 := by
      simp [htbl]
    obtain ⟨ihlen, ihval⟩ :=
      ih (tbl.set (elemAt C (i : ℤ)).toNat (i : ℤ)) htbl'
        (fun j hj => hmem j (List.mem_cons_of_mem _ hj))
    refine ⟨ihlen, ?_⟩
    rw [ihval]
    have hxC : x ∈ C := hC.mem_of_range hx0 hx
    by_cases hcase : (posIn C x).toNat = i
    · have hpos : posIn C x = (i : ℤ) := by
        have := posIn_nonneg C x
        omega
      by_cases hmem' : (posIn C x).toNat ∈ L'
      · rw [if_pos hmem', if_pos (List.mem_cons_of_mem _ hmem')]
      · rw [if_neg hmem', if_pos (by rw [hcase]; exact List.mem_cons_self i L')]
        have hCi : elemAt C (i : ℤ) = x := by
          rw [← hpos]
          exact elemAt_posIn hxC
        have hxlt : x.toNat < tbl.length := by rw [htbl]; omega
        unfold elemAt at hCi ⊢
        rw [hCi, getD_set_self tbl x.toNat (i : ℤ) hxlt]
        omega
    · by_cases hmem' : (posIn C x).toNat ∈ L'
      · rw [if_pos hmem', if_pos (List.mem_cons_of_mem _ hmem')]
      · rw [if_neg hmem',
          if_neg (by rw [List.mem_cons]; push_neg; exact ⟨hcase, hmem'⟩)]
        have hiC : elemAt C (i : ℤ) ∈ C := by
          apply elemAt_mem (by omega)
          rw [hC.1]
          exact_mod_cast hi26
        obtain ⟨hv0, hv1⟩ := hC.2.2 _ hiC
        have hne : (elemAt C (i : ℤ)).toNat ≠ x.toNat := by
          intro habs
          have hveq : elemAt C (i : ℤ) = x := by omega
          have : posIn C x = (i : ℤ) := by
            rw [← hveq]
            apply posIn_elemAt hC.2.1 (by omega)
            rw [hC.1]
            exact_mod_cast hi26
          omega
        unfold elemAt
        exact getD_set_ne tbl (elemAt C (i : ℤ)).toNat x.toNat (i : ℤ) hne

theorem ctKeyLookup_eq {C : List ℤ} (hC : IsAlphPerm C) {x : ℤ}
    (hx0 : 0 ≤ x) (hx : x < 26) :
    elemAt (ctKeyLookup C) x = posIn C x := by
  have h := (ctKeyLookup_aux hC hx0 hx (List.range 26) (List.replicate 26 (-1))
    (by simp) (fun i hi => List.mem_range.mp hi)).2
  unfold ctKeyLookup
  rw [h, if_pos]
  rw [List.mem_range]
  have hxC : x ∈ C := hC.mem_of_range hx0 hx
  have h1 := posIn_lt hxC
  have h2 := posIn_nonneg C x
  rw [hC.1] at h1
  omega

theorem argmaxFold_succ (f : ℕ → ℚ) (n : ℕ) :
    argmaxFold f (n + 1)
      = if (argmaxFold f n).2 < f n then (n, f n) else argmaxFold f n := by
  unfold argmaxFold
  rw [List.range_succ, List.foldl_append, List.foldl_cons, List.foldl_nil]

theorem argmaxFold_spec (f : ℕ → ℚ) (hf : ∀ s, 0 ≤ f s) (n : ℕ) (hn : 0 < n) :
    (argmaxFold f n).1 < n
    ∧ (argmaxFold f n).2 = f (argmaxFold f n).1
    ∧ (∀ s, s < n → f s ≤ (argmaxFold f n).2)
    ∧ (∀ s, s < (argmaxFold f n).1 → f s < (argmaxFold f n).2) := by
  induction n with
  | zero => omega
  | succ n ih =>
    rcases Nat.eq_zero_or_pos n with h0 | hpos
    · subst h0
      have h1 : argmaxFold f 1 = (0, f 0) := by
        unfold argmaxFold
        rw [show List.range 1 = [0] from rfl, List.foldl_cons, List.foldl_nil]
        rw [if_pos (show (-1 : ℚ) < f 0 by have := hf 0; linarith)]
      rw [h1]
      refine ⟨by omega, rfl, ?_, ?_⟩
      · intro s hs
        interval_cases s
        exact le_refl _
      · intro s hs
        exact absurd hs (by omega)
    · obtain ⟨ih1, ih2, ih3, ih4⟩ := ih hpos
      rw [argmaxFold_succ]
      by_cases hup : (argmaxFold f n).2 < f n
      · rw [if_pos hup]
        refine ⟨by omega, rfl, ?_, ?_⟩
        · intro s hs
          rcases Nat.lt_succ_iff_lt_or_eq.mp hs with h | h
          · exact le_of_lt (lt_of_le_of_lt (ih3 s h) hup)
          · subst h
            exact le_refl _
        · intro s hs
          exact lt_of_le_of_lt (ih3 s hs) hup
      · rw [if_neg hup]
        push_neg at hup
        refine ⟨by omega, ih2, ?_, ih4⟩
        intro s hs
        rcases Nat.lt_succ_iff_lt_or_eq.mp hs with h | h
        · exact ih3 s h
        · subst h
          exact hup

theorem foldl_set_spec (g : ℕ → ℤ) (n : ℕ) (acc : List ℤ) :
    ((List.range n).foldl (fun a j => a.set j (g j)) acc).length = acc.length
    ∧ ∀ col, col < n → col < acc.length →
      ((List.range n).foldl (fun a j => a.set j (g j)) acc).getD col 0 = g col := by
  induction n with
  | zero => exact ⟨rfl, fun col h _ => absurd h (by omega)⟩
  | succ n ih =>
    obtain ⟨ihlen, ihval⟩ := ih
    rw [List.range_succ, List.foldl_append, List.foldl_cons, List.foldl_nil]
    constructor
    · rw [List.length_set, ihlen]
    · intro col hcol hacc
      rcases Nat.lt_succ_iff_lt_or_eq.mp hcol with h | h
      · rw [getD_set_ne _ _ _ _ (by omega)]
        exact ihval col h hacc
      · subst h
        exact getD_set_self _ _ _ (by rw [ihlen]; exact hacc)

theorem straight_elemAt (b : ℕ) (hb : b < 26) :
    elemAt (straight_alphabet 26) (b : ℤ) = (b : ℤ) := by
  interval_cases b <;> decide

/-- C7: for every column col of the period, derive_optimal_cycleword
stores the ciphertext-alphabet character C[s*] where s* = bestShift is
the FIRST maximizer of the dot-product score over all 26 shifts (weak
maximality over all shifts, strict over earlier ones); with a permutation
ciphertext alphabet the lookup table holds exactly the positions posIn C
(so no column character is skipped), and when C is the straight alphabet
the stored character equals s* itself. -/
theorem C7_derive_optimal_cycleword (cfgType : ℤ) (variant : Bool)
    (cipher P C cw : List ℤ) (L : ℕ) (hC : IsAlphPerm C)
    (hlen : L ≤ cw.length) (col : ℕ) (hcol : col < L) :
    ((derive_optimal_cycleword cfgType variant cipher P C cw L).getD col 0
        = elemAt C ((bestShift cfgType variant cipher P C L col : ℕ) : ℤ))
    ∧ bestShift cfgType variant cipher P C L col < 26
    ∧ (∀ s, s < 26 → deriveScore cfgType variant cipher P C L col s
        ≤ deriveScore cfgType variant cipher P C L col
            (bestShift cfgType variant cipher P C L col))
    ∧ (∀ s, s < bestShift cfgType variant cipher P C L col →
        deriveScore cfgType variant cipher P C L col s
        < deriveScore cfgType variant cipher P C L col
            (bestShift cfgType variant cipher P C L col))
    ∧ (∀ y : ℤ, 0 ≤ y → y < 26 →
        elemAt (ctKeyLookup C) y = posIn C y ∧ elemAt (ctKeyLookup C) y ≠ -1)
    ∧ (C = straight_alphabet 26 →
        elemAt C ((bestShift cfgType variant cipher P C L col : ℕ) : ℤ)
          = (bestShift cfgType variant cipher P C L col : ℤ)) := by
  have hf : ∀ s, 0 ≤ deriveScore cfgType variant cipher P C L col s :=
    fun s => deriveScore_nonneg cfgType variant cipher P C L col s
  obtain ⟨h1, h2, h3, h4⟩ := argmaxFold_spec
    (fun s => deriveScore cfgType variant cipher P C L col s) hf 26 (by omega)
  refine ⟨?_, h1, ?_, ?_, ?_, ?_⟩
  · unfold derive_optimal_cycleword
    exact (foldl_set_spec
      (fun j => elemAt C ((bestShift cfgType variant cipher P C L j : ℕ) : ℤ))
      L cw).2 col hcol (by omega)
  · intro s hs
    have h := h3 s hs
    rw [h2] at h
    exact h
  · intro s hs
    have h := h4 s hs
    rw [h2] at h
    exact h
  · intro y hy0 hy
    have heq := ctKeyLookup_eq hC hy0 hy
    refine ⟨heq, ?_⟩
    rw [heq]
    have := posIn_nonneg C y
    omega
  · intro hCs
    subst hCs
    exact straight_elemAt _ h1

/-- Witness for C7 at a concrete instance: Vigenere with straight
alphabets, ciphertext [A], cycleword buffer [A], period 1, column 0. -/
theorem C7_derive_optimal_cycleword_witness :
    IsAlphPerm (straight_alphabet 26)
    ∧ (1 : ℕ) ≤ ([0] : List ℤ).length ∧ (0 : ℕ) < 1
    ∧ bestShift VIGENERE false [0] (straight_alphabet 26)
        (straight_alphabet 26) 1 0 < 26
    ∧ (straight_alphabet 26 = straight_alphabet 26 →
        elemAt (straight_alphabet 26)
          ((bestShift VIGENERE false [0] (straight_alphabet 26)
              (straight_alphabet 26) 1 0 : ℕ) : ℤ)
          = (bestShift VIGENERE false [0] (straight_alphabet 26)
              (straight_alphabet 26) 1 0 : ℤ)) :=
  ⟨straight_alphabet_perm, by decide, by decide,
   (C7_derive_optimal_cycleword VIGENERE false [0] (straight_alphabet 26)
      (straight_alphabet 26) [0] 1 straight_alphabet_perm (by decide) 0
      (by decide)).2.1,
   (C7_derive_optimal_cycleword VIGENERE false [0] (straight_alphabet 26)
      (straight_alphabet 26) [0] 1 straight_alphabet_perm (by decide) 0
      (by decide)).2.2.2.2.2⟩

/-! ### C4: crib length mismatch handling

solve_cipher (part_001, lines 501-515) processes the crib text locally:
a crib whose length differs from the ciphertext length is merely ignored
(n_cribs is set to 0, with at most a verbose message) and execution falls
through to the search; the function never returns early here.  By
contrast the standalone quagmire driver (quagmire.c, lines 215-221)
prints an error and returns 0 when the lengths differ.  The crib text is
a string of letters and underscores; we model it as a list of
`Option ℤ` (`none` for the underscore).  `solve_cipher_cribs` returns
the pair (search proceeds?, extracted crib list). -/

def extract_cribs (cribtext : List (Option ℤ)) : List (ℕ × ℤ) :=
  cribtext.enum.filterMap (fun p => (p.2).map (fun v => (p.1, v)))

def solve_cipher_cribs (cribtext : List (Option ℤ)) (cipher_len : ℕ) :
    Bool × List (ℕ × ℤ) :=
  if 0 < cribtext.length then
    if cribtext.length ≠ cipher_len then
      (true, [])
    else
      (true, extract_cribs cribtext)
  else (true, [])

def quagmire_main_crib_check (cribtext_len cipher_len : ℕ) : Bool :=
  decide (cipher_len = cribtext_len)

/-- C4: in solve_cipher a crib length mismatch does NOT abort the session:
the search proceeds for every input, and on a mismatch the crib is silently
discarded (the extracted crib list is empty); only the standalone
quagmire.c driver aborts on a mismatch.  This refutes the claim that no
search is run for that ciphertext. -/
theorem C4_crib_mismatch :
    (∀ (cribtext : List (Option ℤ)) (cipher_len : ℕ),
      (solve_cipher_cribs cribtext cipher_len).1 = true)
    ∧ (∀ (cribtext : List (Option ℤ)) (cipher_len : ℕ),
        cribtext.length ≠ cipher_len →
        (solve_cipher_cribs cribtext cipher_len).2 = [])
    ∧ (∀ (cribtext : List (Option ℤ)) (cipher_len : ℕ),
        cribtext.length = cipher_len →
        (solve_cipher_cribs cribtext cipher_len).2 = extract_cribs cribtext)
    ∧ (∀ (cribtext_len cipher_len : ℕ),
        cribtext_len ≠ cipher_len →
        quagmire_main_crib_check cribtext_len cipher_len = false) := by
  refine ⟨?_, ?_, ?_, ?_⟩
  · intro cribtext cipher_len
    unfold solve_cipher_cribs
    split <;> simp_all
    split <;> rfl
  · intro cribtext cipher_len hne
    unfold solve_cipher_cribs
    split <;> simp_all
  · intro cribtext cipher_len heq
    unfold solve_cipher_cribs
    split <;> simp_all
    rfl
  · intro cribtext_len cipher_len hne
    unfold quagmire_main_crib_check
    simp [Ne.symm hne]

/-- Witness for C4 at a concrete mismatched crib: crib [A] against a
ciphertext of length 2; the solver proceeds with the crib discarded while
the quagmire driver check fails. -/
theorem C4_crib_mismatch_witness :
    (([some (0 : ℤ)] : List (Option ℤ)).length ≠ 2
      ∧ (solve_cipher_cribs [some (0 : ℤ)] 2).2 = [])
    ∧ (([some (0 : ℤ), none] : List (Option ℤ)).length = 2
      ∧ (solve_cipher_cribs [some (0 : ℤ), none] 2).2
        = extract_cribs [some (0 : ℤ), none])
    ∧ ((1 : ℕ) ≠ 2 ∧ quagmire_main_crib_check 1 2 = false) :=
  ⟨⟨by decide, C4_crib_mismatch.2.1 [some 0] 2 (by decide)⟩,
   ⟨by decide, C4_crib_mismatch.2.2.1 [some 0, none] 2 (by decide)⟩,
   ⟨by decide, C4_crib_mismatch.2.2.2 1 2 (by decide)⟩⟩

/-- Counterexample for C4: a crib of length 1 against a ciphertext of
length 2 — the lengths differ, yet solve_cipher proceeds with the search
(first component true) and the crib list is empty (silently discarded). -/
theorem C4_crib_mismatch_cex :
    ([some (0 : ℤ)] : List (Option ℤ)).length ≠ 2
    ∧ solve_cipher_cribs [some (0 : ℤ)] 2 = (true, []) := by
  decide

theorem iocQ_pair : iocQ [(0 : ℤ), 0] = 1 := by
  unfold iocQ
  rw [Finset.sum_eq_single_of_mem 0 (by simp)]
  · have h2 : List.count (((0 : ℕ) : ℤ)) [(0 : ℤ), 0] = 2 := by decide
    rw [h2]
    norm_num
  · intro b _ hb0
    have h0 : List.count (((b : ℕ) : ℤ)) [(0 : ℤ), 0] = 0 := by
      rw [List.count_eq_zero]
      intro hmem
      simp at hmem
      omega
    rw [h0]
    norm_num

theorem mean_ioc_pair : mean_ioc [(0 : ℤ), 0] 1 = 1 := by
  have hcol : column [(0 : ℤ), 0] 1 0 = [0, 0] := by decide
  unfold mean_ioc
  rw [show List.range 1 = [0] from rfl]
  simp [hcol, iocQ_pair]

theorem estVariance_pair : estVariance [(0 : ℤ), 0] 1 = 0 := by
  unfold estVariance estMean estRawIocs
  rw [show List.range 1 = [0] from rfl]
  simp [mean_ioc_pair]

theorem estCandidates_pair : estCandidates [(0 : ℤ), 0] 1 0 0 0 = [(1, 1)] := by
  have hz : ∀ x : ℚ, zScoreOf (estMean [(0 : ℤ), 0] 1) 0 x = 0 := by
    intro x
    unfold zScoreOf
    rw [if_neg (lt_irrefl 0)]
  unfold estCandidates
  rw [show List.range 1 = [0] from rfl]
  rw [List.filterMap_cons, List.filterMap_nil]
  rw [show (0 : ℕ) + 1 = 1 from rfl, mean_ioc_pair]
  rw [if_pos ⟨(hz 1).symm.le, by norm_num⟩]

/-- Witness for C5: the two-letter text AA with Lmax = 1; all raw IoCs
equal 1, the variance is 0, the standard deviation is 0, the z-scores
fall back to 0 and the single candidate list is its own (trivially
admissible) qsort output. -/
theorem C5_estimate_witness :
    ((1 ≤ 1) ∧ (2 * 1 ≤ ([0, 0] : List ℤ).length) ∧ ((0 : ℚ) ≤ 0)
      ∧ ((0 : ℚ) * 0
        = if 0 < estVariance [0, 0] 1 then estVariance [0, 0] 1 else 0)
      ∧ ([((1 : ℕ), (1 : ℚ))]).Perm (estCandidates [0, 0] 1 0 0 0)
      ∧ CompareCandidatesSorted [((1 : ℕ), (1 : ℚ))])
    ∧ (∀ Lc, Lc ∈ estimate_cycleword_lengths [0, 0] 1 0 0 0 [((1 : ℕ), (1 : ℚ))] ↔
        (1 ≤ Lc ∧ Lc ≤ 1
          ∧ (0 : ℚ) ≤ zScoreOf (estMean [0, 0] 1) 0 (mean_ioc [0, 0] Lc)
          ∧ (0 : ℚ) ≤ mean_ioc [0, 0] Lc)) :=
  ⟨⟨by decide, by decide, le_refl 0,
    by rw [estVariance_pair]; norm_num,
    by rw [estCandidates_pair],
    by decide⟩,
    (C5_estimate_cycleword_lengths [0, 0] 1 0 0 0 [((1 : ℕ), (1 : ℚ))]
      (by decide) (by decide) (le_refl 0) (by rw [estVariance_pair]; norm_num)
      (by rw [estCandidates_pair]) (by decide)).1⟩

theorem iocQ_quad : iocQ [(0 : ℤ), 0, 0, 0] = 1 := by
  unfold iocQ
  rw [Finset.sum_eq_single_of_mem 0 (by simp)]
  · have h4 : List.count (((0 : ℕ) : ℤ)) [(0 : ℤ), 0, 0, 0] = 4 := by decide
    rw [h4]
    norm_num
  · intro b _ hb0
    have h0 : List.count (((b : ℕ) : ℤ)) [(0 : ℤ), 0, 0, 0] = 0 := by
      rw [List.count_eq_zero]
      intro hmem
      simp at hmem
      omega
    rw [h0]
    norm_num

theorem mean_ioc_quad_one : mean_ioc [(0 : ℤ), 0, 0, 0] 1 = 1 := by
  have hcol : column [(0 : ℤ), 0, 0, 0] 1 0 = [0, 0, 0, 0] := by decide
  unfold mean_ioc
  rw [show List.range 1 = [0] from rfl]
  simp [hcol, iocQ_quad]

theorem mean_ioc_quad_two : mean_ioc [(0 : ℤ), 0, 0, 0] 2 = 1 := by
  have hcol0 : column [(0 : ℤ), 0, 0, 0] 2 0 = [0, 0] := by decide
  have hcol1 : column [(0 : ℤ), 0, 0, 0] 2 1 = [0, 0] := by decide
  unfold mean_ioc
  rw [show List.range 2 = [0, 1] from rfl]
  simp only [List.map_cons, List.map_nil, hcol0, hcol1, iocQ_pair,
    List.sum_cons, List.sum_nil]
  norm_num

theorem estCandidates_quad :
    estCandidates [(0 : ℤ), 0, 0, 0] 2 0 0 0 = [(1, 1), (2, 1)] := by
  have hz : ∀ x : ℚ, zScoreOf (estMean [(0 : ℤ), 0, 0, 0] 2) 0 x = 0 := by
    intro x
    unfold zScoreOf
    rw [if_neg (lt_irrefl 0)]
  unfold estCandidates
  rw [show List.range 2 = [0, 1] from rfl]
  rw [List.filterMap_cons, List.filterMap_cons, List.filterMap_nil]
  rw [show (0 : ℕ) + 1 = 1 from rfl, show (1 : ℕ) + 1 = 2 from rfl]
  rw [mean_ioc_quad_one, mean_ioc_quad_two]
  rw [if_pos ⟨(hz 1).symm.le, by norm_num⟩, if_pos ⟨(hz 1).symm.le, by norm_num⟩]

/-- Counterexample for the stable-tie clause of C5: on text AAAA with
Lmax = 2 both periods have raw mean IoC exactly 1, so the candidate list
is [(1,1), (2,1)]; the reversed list [(2,1), (1,1)] is also a
rearrangement that compare_candidates accepts (it compares only the IoC
and returns 0 on this tie), hence an admissible qsort output, and it
emits the periods as [2, 1] - not the ascending-L order [1, 2] the claim
asserts. -/
theorem C5_qsort_tie_cex :
    estCandidates [0, 0, 0, 0] 2 0 0 0 = [(1, 1), (2, 1)]
    ∧ ([((2 : ℕ), (1 : ℚ)), (1, 1)]).Perm (estCandidates [0, 0, 0, 0] 2 0 0 0)
    ∧ CompareCandidatesSorted [((2 : ℕ), (1 : ℚ)), (1, 1)]
    ∧ estimate_cycleword_lengths [0, 0, 0, 0] 2 0 0 0
        [((2 : ℕ), (1 : ℚ)), (1, 1)] = [2, 1]
    ∧ [2, 1] ≠ [1, 2] := by
  refine ⟨estCandidates_quad, ?_, by decide, by decide, by decide⟩
  rw [estCandidates_quad]
  exact List.Perm.swap _ _ _

/-! ### C9: shotgun_hill_climber invariants (part_001, lines 1113-1130,
1663-1729)

The inner loop scores a perturbed local candidate, copies it into the
current state when it strictly improves (or on a slip coin), and copies
the current state into the best state only when current_score strictly
exceeds best_score.  We model one iteration as a step on a ClimbState
driven by an event (candidate state, its score, slip outcome), and the
perturbation/initialisation primitives as list operations whose random
indices and draws are parameters. -/

structure SolverState where
  pt : List ℤ
  ct : List ℤ
  cw : List ℤ

/-- Feasibility: both keyword alphabets are permutations of [0,25] and
every cycleword letter lies in [0,26). -/
def FeasibleState (st : SolverState) : Prop :=
  IsAlphPerm st.pt ∧ IsAlphPerm st.ct ∧ ∀ x ∈ st.cw, 0 ≤ x ∧ x < 26

instance (st : SolverState) : Decidable (FeasibleState st) := by
  unfold FeasibleState
  infer_instance

/-- perturbate_keyword, swap branch (part_001:1666-1676): exchange the
entries at positions i and j. -/
def swapPerturb (state : List ℤ) (i j : ℕ) : List ℤ :=
  (state.set i (state.getD j 0)).set j (state.getD i 0)

/-- Insertion position of the displaced keyword letter in the
outside-move branch (part_001:1692-1697): first k in
[keyword_len, len-1) of the shifted array whose entry exceeds temp,
else len-1. -/
def outsideInsertPos (s2 : List ℤ) (temp : ℤ) (kwlen len : ℕ) : ℕ :=
  ((((List.range (len - 1 - kwlen)).map (fun t => kwlen + t)).find?
    (fun k => decide (temp < s2.getD k 0))).getD (len - 1))

/-- perturbate_keyword, outside-move branch (part_001:1678-1698):
temp = state[i] (i inside the keyword), state[i] = state[j]
(j in the alphabet tail), delete position j by shifting left, and
re-insert temp into the tail before the first larger entry (or at the
end). -/
def outsidePerturb (state : List ℤ) (i j kwlen len : ℕ) : List ℤ :=
  ((state.set i (state.getD j 0)).eraseIdx j).insertIdx
    (outsideInsertPos ((state.set i (state.getD j 0)).eraseIdx j)
      (state.getD i 0) kwlen len)
    (state.getD i 0)

/-- perturbate_cycleword (part_001:1657-1660): one random position gets
one random letter. -/
def perturbate_cycleword (state : List ℤ) (i : ℕ) (v : ℤ) : List ℤ :=
  state.set i v

/-- The second phase of random_keyword / make_keyed_alphabet
(part_001:1717-1728, 1748-1753): append the unused letters of A..Z in
ascending order. -/
def keyed_complement (kw : List ℤ) : List ℤ :=
  ((List.range 26).map (fun (t : ℕ) => (t : ℤ))).filter (fun x => decide (x ∉ kw))

/-- random_keyword (part_001:1703-1729) with the loop of distinct random
draws abstracted into its result kw (a duplicate-free list of letters):
the keyword letters followed by the unused letters in order. -/
def random_keyword (kw : List ℤ) : List ℤ :=
  kw ++ keyed_complement kw

/-- First phase of make_keyed_alphabet (part_001:1731-1746): keep the
first occurrence of each in-range letter of the keyword, in order. -/
def seenFold (letters : List ℤ) : List ℤ :=
  letters.foldl (fun acc ch =>
    if 0 ≤ ch ∧ ch < 26 ∧ ch ∉ acc then acc ++ [ch] else acc) []

/-- make_keyed_alphabet (part_001:1731-1755): deduplicated keyword
letters, then the unused letters in order. -/
def make_keyed_alphabet (letters : List ℤ) : List ℤ :=
  random_keyword (seenFold letters)

theorem isAlphPerm_of_length_full (A : List ℤ) (hlen : A.length = 26)
    (hfull : ∀ x : ℤ, 0 ≤ x → x < 26 → x ∈ A) : IsAlphPerm A := by
  have hsub : Finset.Ico (0 : ℤ) 26 ⊆ A.toFinset := by
    intro x hx
    rw [List.mem_toFinset]
    rcases Finset.mem_Ico.mp hx with ⟨h0, h1⟩
    exact hfull x h0 h1
  have hcard : 26 ≤ A.toFinset.card := by
    have h := Finset.card_le_card hsub
    simpa [Int.card_Ico] using h
  have hded : A.dedup.length = 26 := by
    have h1 : A.toFinset.card = A.dedup.length := List.card_toFinset A
    have h2 : A.dedup.length ≤ A.length := (List.dedup_sublist A).length_le
    omega
  have hdedeq : A.dedup = A := (List.dedup_sublist A).eq_of_length (by omega)
  have hnd : A.Nodup := List.dedup_eq_self.mp hdedeq
  have htf : Finset.Ico (0 : ℤ) 26 = A.toFinset := by
    apply Finset.eq_of_subset_of_card_le hsub
    rw [List.toFinset_card_of_nodup hnd, hlen]
    simp [Int.card_Ico]
  refine ⟨hlen, hnd, ?_⟩
  intro x hx
  have hmem : x ∈ A.toFinset := List.mem_toFinset.mpr hx
  rw [← htf] at hmem
  exact Finset.mem_Ico.mp hmem

theorem isAlphPerm_of_nodup_full (A : List ℤ) (hnd : A.Nodup)
    (hr : ∀ x ∈ A, 0 ≤ x ∧ x < 26)
    (hfull : ∀ x : ℤ, 0 ≤ x → x < 26 → x ∈ A) : IsAlphPerm A := by
  have hlen : A.length = 26 := by
    have h1 : A.toFinset = Finset.Ico (0 : ℤ) 26 := by
      apply Finset.Subset.antisymm
      · intro x hx
        rw [List.mem_toFinset] at hx
        rcases hr x hx with ⟨h0, h1⟩
        exact Finset.mem_Ico.mpr ⟨h0, h1⟩
      · intro x hx
        rcases Finset.mem_Ico.mp hx with ⟨h0, h1⟩
        exact List.mem_toFinset.mpr (hfull x h0 h1)
    have h2 := List.toFinset_card_of_nodup hnd
    rw [h1] at h2
    simp [Int.card_Ico] at h2
    omega
  exact ⟨hlen, hnd, hr⟩

theorem swapPerturb_isAlphPerm {A : List ℤ} (hA : IsAlphPerm A) {i j : ℕ}
    (hi : i < 26) (hj : j < 26) : IsAlphPerm (swapPerturb A i j) := by
  have hiA : i < A.length := by rw [hA.1]; exact hi
  have hjA : j < A.length := by rw [hA.1]; exact hj
  have hlen : (swapPerturb A i j).length = 26 := by
    simp [swapPerturb, hA.1]
  apply isAlphPerm_of_length_full _ hlen
  intro x h0 h1
  have hxA : x ∈ A := hA.mem_of_range h0 h1
  have hp : A.indexOf x < A.length := List.indexOf_lt_length.mpr hxA
  have hpx : A[A.indexOf x] = x := List.getElem_indexOf hp
  have hgi : A.getD i 0 = A[i] := List.getD_eq_getElem A 0 hiA
  have hgj : A.getD j 0 = A[j] := List.getD_eq_getElem A 0 hjA
  by_cases hpi : A.indexOf x = i
  · -- x sits at i; after the swap it sits at j
    refine List.mem_iff_getElem.mpr ⟨j, by rw [hlen]; exact hj, ?_⟩
    unfold swapPerturb
    rw [List.getElem_set_self (by simpa using hjA)]
    subst hpi
    rw [hgi]
    exact hpx
  · by_cases hpj : A.indexOf x = j
    · -- x sits at j; after the swap it sits at i (i ≠ j here)
      have hij : i ≠ j := by
        intro h
        exact hpi (by rw [h, hpj])
      refine List.mem_iff_getElem.mpr ⟨i, by rw [hlen]; exact hi, ?_⟩
      unfold swapPerturb
      rw [List.getElem_set_ne (by omega)]
      rw [List.getElem_set_self (by simpa using hiA)]
      subst hpj
      rw [hgj]
      exact hpx
    · -- x sits away from both i and j and is untouched
      refine List.mem_iff_getElem.mpr
        ⟨A.indexOf x, by rw [hlen, ← hA.1]; exact hp, ?_⟩
      unfold swapPerturb
      rw [List.getElem_set_ne (by omega), List.getElem_set_ne (by omega)]
      exact hpx

theorem outsideInsertPos_le (s2 : List ℤ) (temp : ℤ) (kwlen : ℕ) :
    outsideInsertPos s2 temp kwlen 26 ≤ 25 := by
  unfold outsideInsertPos
  rcases hfind : (((List.range (26 - 1 - kwlen)).map (fun t => kwlen + t)).find?
      (fun k => decide (temp < s2.getD k 0))) with _ | k
  · simp
  · simp only [Option.getD_some]
    have hk := List.mem_of_find?_eq_some hfind
    simp only [List.mem_map, List.mem_range] at hk
    obtain ⟨t, ht, rfl⟩ := hk
    omega

theorem outsidePerturb_isAlphPerm {A : List ℤ} (hA : IsAlphPerm A)
    {i j kwlen : ℕ} (hik : i < kwlen) (hkj : kwlen ≤ j) (hj : j < 26) :
    IsAlphPerm (outsidePerturb A i j kwlen 26) := by
  have hiA : i < A.length := by rw [hA.1]; omega
  have hjA : j < A.length := by rw [hA.1]; exact hj
  have hij : i < j := by omega
  have hBlen : (A.set i (A.getD j 0)).length = A.length := by simp
  have hElen : ((A.set i (A.getD j 0)).eraseIdx j).length = 25 := by
    rw [List.length_eraseIdx_of_lt (by rw [hBlen]; exact hjA), hBlen, hA.1]
  have hpose : outsideInsertPos ((A.set i (A.getD j 0)).eraseIdx j)
      (A.getD i 0) kwlen 26 ≤ ((A.set i (A.getD j 0)).eraseIdx j).length := by
    have h := outsideInsertPos_le ((A.set i (A.getD j 0)).eraseIdx j)
      (A.getD i 0) kwlen
    omega
  have hreslen : (outsidePerturb A i j kwlen 26).length = 26 := by
    unfold outsidePerturb
    rw [List.length_insertIdx _ _ hpose, hElen]
  apply isAlphPerm_of_length_full _ hreslen
  intro x h0 h1
  have hxA : x ∈ A := hA.mem_of_range h0 h1
  obtain ⟨p, hpA, hpx⟩ := List.mem_iff_getElem.mp hxA
  have hstep : x ∈ (A.set i (A.getD j 0)).eraseIdx j ∨ x = A.getD i 0 →
      x ∈ outsidePerturb A i j kwlen 26 := by
    intro hy
    unfold outsidePerturb
    rw [List.mem_insertIdx hpose]
    tauto
  apply hstep
  by_cases hpi : p = i
  · -- x = temp, re-inserted
    right
    subst hpi
    rw [List.getD_eq_getElem A 0 hpA]
    exact hpx.symm
  · left
    by_cases hpj : p = j
    · -- x = A[j]: the set put a copy at position i < j, which survives the
      -- erase at j
      subst hpj
      refine List.mem_iff_getElem.mpr ⟨i, by rw [hElen]; omega, ?_⟩
      rw [List.getElem_eraseIdx_of_lt _ _ _ (by rw [hElen]; omega) hij]
      rw [List.getElem_set_self (by simpa using hiA)]
      rw [List.getD_eq_getElem A 0 hpA]
      exact hpx
    · rcases Nat.lt_or_ge p j with hplt | hpge
      · -- position p < j survives unshifted
        refine List.mem_iff_getElem.mpr ⟨p, by rw [hElen]; omega, ?_⟩
        rw [List.getElem_eraseIdx_of_lt _ _ _ (by rw [hElen]; omega) hplt]
        rw [List.getElem_set_ne (by omega)]
        exact hpx
      · -- position p > j shifts down by one
        have hgt : j < p := by omega
        obtain ⟨q, rfl⟩ : ∃ q, p = q + 1 := ⟨p - 1, by omega⟩
        refine List.mem_iff_getElem.mpr ⟨q, by rw [hElen]; rw [hA.1] at hpA; omega, ?_⟩
        rw [List.getElem_eraseIdx_of_ge _ _ _ (by rw [hElen]; rw [hA.1] at hpA; omega)
          (by omega)]
        rw [List.getElem_set_ne (by omega)]
        exact hpx

theorem keyed_complement_sub (kw : List ℤ) :
    ∀ x ∈ keyed_complement kw, (0 ≤ x ∧ x < 26) ∧ x ∉ kw := by
  intro x hx
  unfold keyed_complement at hx
  rw [List.mem_filter] at hx
  obtain ⟨hmem, hdec⟩ := hx
  simp only [List.mem_map, List.mem_range] at hmem
  obtain ⟨t, ht, rfl⟩ := hmem
  refine ⟨⟨by positivity, by exact_mod_cast ht⟩, ?_⟩
  simpa using hdec

theorem mem_keyed_complement {kw : List ℤ} {x : ℤ} (h0 : 0 ≤ x) (h1 : x < 26)
    (hx : x ∉ kw) : x ∈ keyed_complement kw := by
  unfold keyed_complement
  rw [List.mem_filter]
  constructor
  · simp only [List.mem_map, List.mem_range]
    exact ⟨x.toNat, by omega, by omega⟩
  · simpa using hx

theorem keyed_complement_nodup (kw : List ℤ) : (keyed_complement kw).Nodup := by
  apply List.Nodup.filter
  have h : ((List.range 26).map (fun (t : ℕ) => (t : ℤ))).Nodup := by decide
  exact h

theorem random_keyword_isAlphPerm (kw : List ℤ) (hnd : kw.Nodup)
    (hr : ∀ x ∈ kw, 0 ≤ x ∧ x < 26) : IsAlphPerm (random_keyword kw) := by
  apply isAlphPerm_of_nodup_full
  · unfold random_keyword
    rw [List.nodup_append]
    refine ⟨hnd, keyed_complement_nodup kw, ?_⟩
    intro a ha hacomp
    exact (keyed_complement_sub kw a hacomp).2 ha
  · intro x hx
    unfold random_keyword at hx
    rw [List.mem_append] at hx
    rcases hx with hx | hx
    · exact hr x hx
    · exact (keyed_complement_sub kw x hx).1
  · intro x h0 h1
    unfold random_keyword
    rw [List.mem_append]
    by_cases hxkw : x ∈ kw
    · exact Or.inl hxkw
    · exact Or.inr (mem_keyed_complement h0 h1 hxkw)

theorem seenFold_aux (letters : List ℤ) :
    ∀ acc : List ℤ, acc.Nodup → (∀ x ∈ acc, 0 ≤ x ∧ x < 26) →
      (letters.foldl (fun a ch =>
          if 0 ≤ ch ∧ ch < 26 ∧ ch ∉ a then a ++ [ch] else a) acc).Nodup
      ∧ ∀ x ∈ letters.foldl (fun a ch =>
          if 0 ≤ ch ∧ ch < 26 ∧ ch ∉ a then a ++ [ch] else a) acc,
          0 ≤ x ∧ x < 26 := by
  induction letters with
  | nil =>
    intro acc hnd hr
    exact ⟨hnd, hr⟩
  | cons ch rest ih =>
    intro acc hnd hr
    rw [List.foldl_cons]
    by_cases hcond : 0 ≤ ch ∧ ch < 26 ∧ ch ∉ acc
    · rw [if_pos hcond]
      apply ih
      · rw [List.nodup_append]
        refine ⟨hnd, by simp, ?_⟩
        intro a ha hasing
        rw [List.mem_singleton] at hasing
        subst hasing
        exact hcond.2.2 ha
      · intro x hx
        rw [List.mem_append, List.mem_singleton] at hx
        rcases hx with hx | hx
        · exact hr x hx
        · subst hx
          exact ⟨hcond.1, hcond.2.1⟩
    · rw [if_neg hcond]
      exact ih acc hnd hr

theorem make_keyed_alphabet_isAlphPerm (letters : List ℤ) :
    IsAlphPerm (make_keyed_alphabet letters) := by
  obtain ⟨hnd, hr⟩ := seenFold_aux letters [] (by simp) (by simp)
  exact random_keyword_isAlphPerm (seenFold letters) hnd hr

structure ClimbState where
  currentScore : ℚ
  current : SolverState
  bestScore : ℚ
  best : SolverState

/-- The accept block (part_001:1113-1124): the local candidate replaces
the current state when it strictly improves the current score, else
when the slip coin fires. -/
def climbAccept (cs : ClimbState) (st : SolverState) (ls : ℚ) (slip : Bool) :
    ClimbState :=
  if cs.currentScore < ls then
    { cs with currentScore := ls, current := st }
  else if slip then
    { cs with currentScore := ls, current := st }
  else cs

/-- The best-update block (part_001:1126-1130): the best state is
overwritten exactly when the current score strictly exceeds the best
score. -/
def climbBestUpdate (cs : ClimbState) : ClimbState :=
  if cs.bestScore < cs.currentScore then
    { cs with bestScore := cs.currentScore, best := cs.current }
  else cs

def climbStep (cs : ClimbState) (ev : SolverState × ℚ × Bool) : ClimbState :=
  climbBestUpdate (climbAccept cs ev.1 ev.2.1 ev.2.2)

def climbTrace (cs : ClimbState) (evs : List (SolverState × ℚ × Bool)) :
    ClimbState :=
  evs.foldl climbStep cs

theorem climbAccept_spec (cs : ClimbState) (st : SolverState) (ls : ℚ)
    (slip : Bool) :
    (climbAccept cs st ls slip).bestScore = cs.bestScore
    ∧ (climbAccept cs st ls slip).best = cs.best
    ∧ ((climbAccept cs st ls slip).current = cs.current
        ∨ (climbAccept cs st ls slip).current = st) := by
  unfold climbAccept
  split_ifs <;> simp

theorem climbStep_mono (cs : ClimbState) (ev : SolverState × ℚ × Bool) :
    cs.bestScore ≤ (climbStep cs ev).bestScore := by
  unfold climbStep climbBestUpdate
  have h1 := (climbAccept_spec cs ev.1 ev.2.1 ev.2.2).1
  split_ifs with h
  · show cs.bestScore ≤ (climbAccept cs ev.1 ev.2.1 ev.2.2).currentScore
    rw [h1] at h
    linarith
  · show cs.bestScore ≤ (climbAccept cs ev.1 ev.2.1 ev.2.2).bestScore
    rw [h1]

theorem climbStep_best_cases (cs : ClimbState) (ev : SolverState × ℚ × Bool) :
    ((climbStep cs ev).best = cs.best
      ∧ (climbStep cs ev).bestScore = cs.bestScore)
    ∨ cs.bestScore < (climbStep cs ev).bestScore := by
  unfold climbStep climbBestUpdate
  have h1 := (climbAccept_spec cs ev.1 ev.2.1 ev.2.2).1
  have h2 := (climbAccept_spec cs ev.1 ev.2.1 ev.2.2).2.1
  split_ifs with h
  · right
    show cs.bestScore < (climbAccept cs ev.1 ev.2.1 ev.2.2).currentScore
    rw [← h1]
    exact h
  · left
    exact ⟨h2, h1⟩

theorem climbStep_feasible (cs : ClimbState) (ev : SolverState × ℚ × Bool)
    (hb : FeasibleState cs.best) (hc : FeasibleState cs.current)
    (hev : FeasibleState ev.1) :
    FeasibleState (climbStep cs ev).best
    ∧ FeasibleState (climbStep cs ev).current := by
  unfold climbStep climbBestUpdate
  have h3 := (climbAccept_spec cs ev.1 ev.2.1 ev.2.2).2.1
  have h4 := (climbAccept_spec cs ev.1 ev.2.1 ev.2.2).2.2
  have hcur : FeasibleState (climbAccept cs ev.1 ev.2.1 ev.2.2).current := by
    rcases h4 with h | h <;> rw [h]
    · exact hc
    · exact hev
  have hbst : FeasibleState (climbAccept cs ev.1 ev.2.1 ev.2.2).best := by
    rw [h3]
    exact hb
  split_ifs with h
  · exact ⟨hcur, hcur⟩
  · exact ⟨hbst, hcur⟩

/-- C9: along any trace of inner iterations of shotgun_hill_climber the
best-so-far score is non-decreasing and the best state changes only when
the score strictly improves; starting from feasible best/current states
and feasible local candidates, the best and current states stay feasible;
and every state-producing primitive preserves feasibility: both branches
of perturbate_keyword map permutation alphabets to permutation alphabets,
perturbate_cycleword keeps cycleword letters in [0,26), and
random_keyword / make_keyed_alphabet always build permutation
alphabets. -/
theorem C9_climber_invariants (cs : ClimbState)
    (evs : List (SolverState × ℚ × Bool))
    (hbest : FeasibleState cs.best) (hcur : FeasibleState cs.current)
    (hevs : ∀ ev ∈ evs, FeasibleState ev.1) :
    (cs.bestScore ≤ (climbTrace cs evs).bestScore)
    ∧ ((climbTrace cs evs).best ≠ cs.best →
        cs.bestScore < (climbTrace cs evs).bestScore)
    ∧ FeasibleState (climbTrace cs evs).best
    ∧ FeasibleState (climbTrace cs evs).current
    ∧ (∀ (A : List ℤ) (i j : ℕ), IsAlphPerm A → i < 26 → j < 26 →
        IsAlphPerm (swapPerturb A i j))
    ∧ (∀ (A : List ℤ) (i j kwlen : ℕ), IsAlphPerm A → i < kwlen → kwlen ≤ j →
        j < 26 → IsAlphPerm (outsidePerturb A i j kwlen 26))
    ∧ (∀ (cw : List ℤ) (i : ℕ) (v : ℤ), (∀ x ∈ cw, 0 ≤ x ∧ x < 26) →
        0 ≤ v → v < 26 → ∀ x ∈ perturbate_cycleword cw i v, 0 ≤ x ∧ x < 26)
    ∧ (∀ kw : List ℤ, kw.Nodup → (∀ x ∈ kw, 0 ≤ x ∧ x < 26) →
        IsAlphPerm (random_keyword kw))
    ∧ (∀ letters : List ℤ, IsAlphPerm (make_keyed_alphabet letters)) := by
  have htrace : ∀ (l : List (SolverState × ℚ × Bool)) (c0 : ClimbState),
      FeasibleState c0.best → FeasibleState c0.current →
      (∀ ev ∈ l, FeasibleState ev.1) →
      (c0.bestScore ≤ (climbTrace c0 l).bestScore
        ∧ ((climbTrace c0 l).best ≠ c0.best →
            c0.bestScore < (climbTrace c0 l).bestScore)
        ∧ FeasibleState (climbTrace c0 l).best
        ∧ FeasibleState (climbTrace c0 l).current) := by
    intro l
    induction l with
    | nil =>
      intro c0 hb hc _
      exact ⟨le_refl _, fun h => absurd rfl h, hb, hc⟩
    | cons e es ih =>
      intro c0 hb hc hl
      have hstep := climbStep_feasible c0 e hb hc (hl e (List.mem_cons_self e es))
      have hmono := climbStep_mono c0 e
      have hrest := ih (climbStep c0 e) hstep.1 hstep.2
        (fun ev hev => hl ev (List.mem_cons_of_mem e hev))
      have htr : climbTrace c0 (e :: es) = climbTrace (climbStep c0 e) es := rfl
      rw [htr]
      refine ⟨le_trans hmono hrest.1, ?_, hrest.2.2.1, hrest.2.2.2⟩
      intro hne
      rcases climbStep_best_cases c0 e with ⟨heq, hsc⟩ | hlt
      · have hne2 : (climbTrace (climbStep c0 e) es).best ≠ (climbStep c0 e).best := by
          rw [heq]
          exact hne
        have h := hrest.2.1 hne2
        rw [hsc] at h
        exact h
      · exact lt_of_lt_of_le hlt hrest.1
  obtain ⟨t1, t2, t3, t4⟩ := htrace evs cs hbest hcur hevs
  refine ⟨t1, t2, t3, t4, ?_, ?_, ?_, ?_, ?_⟩
  · intro A i j hA hi hj
    exact swapPerturb_isAlphPerm hA hi hj
  · intro A i j kwlen hA hik hkj hj
    exact outsidePerturb_isAlphPerm hA hik hkj hj
  · intro cw i v hcw h0 h1 x hx
    unfold perturbate_cycleword at hx
    rcases List.mem_or_eq_of_mem_set hx with h | h
    · exact hcw x h
    · rw [h]
      exact ⟨h0, h1⟩
  · exact random_keyword_isAlphPerm
  · exact make_keyed_alphabet_isAlphPerm

/-- Witness for C9: the empty trace from a state whose best and current
are the straight-alphabet state with empty cycleword. -/
theorem C9_climber_invariants_witness :
    FeasibleState ⟨straight_alphabet 26, straight_alphabet 26, []⟩
    ∧ (0 : ℚ) ≤ (climbTrace
        ⟨0, ⟨straight_alphabet 26, straight_alphabet 26, []⟩,
         0, ⟨straight_alphabet 26, straight_alphabet 26, []⟩⟩ []).bestScore
    ∧ FeasibleState (climbTrace
        ⟨0, ⟨straight_alphabet 26, straight_alphabet 26, []⟩,
         0, ⟨straight_alphabet 26, straight_alphabet 26, []⟩⟩ []).best :=
  ⟨by decide,
   (C9_climber_invariants
      ⟨0, ⟨straight_alphabet 26, straight_alphabet 26, []⟩,
       0, ⟨straight_alphabet 26, straight_alphabet 26, []⟩⟩ []
      (by decide) (by decide) (by simp)).1,
   (C9_climber_invariants
      ⟨0, ⟨straight_alphabet 26, straight_alphabet 26, []⟩,
       0, ⟨straight_alphabet 26, straight_alphabet 26, []⟩⟩ []
      (by decide) (by decide) (by simp)).2.2.1⟩

end Poly
